import Mathlib

/-
Verification of the ZPIC OmpSs-2/OpenACC particle-in-cell kernels.

The development shallowly embeds the C kernels of the repository:
  * emf.c (ompss2_openacc): yee_b_openacc, yee_e_openacc, emf_update_gc_x,
    emf_move_window_openacc, emf_advance_openacc, emf_add_laser;
  * the ompss2 variant of the field solver (second part of particles.h);
  * kernel_particles.c: prefix_sum_openacc_min / _full, interpolate_fld_openacc,
    advance_part_velocity, dep_current_openacc, spec_advance_openacc,
    spec_advance_openacc_default, spec_check_boundaries_openacc.

Modeling conventions:
  * a flat C array of t_vfld addressed as F[i + j*nrow] is modeled as a total
    function on integer cell coordinates (i, j); for every kernel embedded here
    the accessed i range per row is strictly shorter than nrow = gc00+nx0+gc01,
    so distinct coordinates always denote distinct flat slots;
  * a C loop nest that stores into an array is modeled as a List.foldl of
    Function.update steps over the exact iteration-order index list; the
    pointwise description of the result is then proved, never assumed;
  * float arithmetic is modeled as exact arithmetic: rational numbers for the
    field solver, real numbers where the code takes square roots (the pusher)
    or trigonometric functions (the laser);
  * C int values are modeled as unbounded integers (no kernel here relies on
    wraparound).
-/

namespace ZPIC

/-- Three-component vector field value, t_vfld / t_float3 of zpic.h. -/
structure Vfld (α : Type) where
  x : α
  y : α
  z : α
deriving DecidableEq, Repr

instance {α : Type} [Add α] : Add (Vfld α) where
  add a b := ⟨a.x + b.x, a.y + b.y, a.z + b.z⟩

instance {α : Type} [Zero α] : Zero (Vfld α) where
  zero := ⟨0, 0, 0⟩

theorem Vfld.add_def {α : Type} [Add α] (a b : Vfld α) :
    a + b = ⟨a.x + b.x, a.y + b.y, a.z + b.z⟩ := rfl

theorem Vfld.zero_def {α : Type} [Zero α] : (0 : Vfld α) = ⟨0, 0, 0⟩ := rfl

/-- Grid cell coordinates: the flat buffer slot i + j*nrow is the cell (i, j). -/
abbrev Cell : Type := ℤ × ℤ

/-- The list a, a+1, ..., a+n-1 of loop indices of a C for loop. -/
def intRange (a : ℤ) (n : ℕ) : List ℤ :=
  (List.range n).map (fun t : ℕ => a + (t : ℤ))

theorem mem_intRange {a : ℤ} {n : ℕ} {i : ℤ} :
    i ∈ intRange a n ↔ a ≤ i ∧ i < a + (n : ℤ) := by
  simp only [intRange, List.mem_map, List.mem_range]
  constructor
  · rintro ⟨t, ht, rfl⟩
    omega
  · rintro ⟨h1, h2⟩
    exact ⟨(i - a).toNat, by omega, by omega⟩

theorem nodup_intRange (a : ℤ) (n : ℕ) : (intRange a n).Nodup := by
  refine List.Nodup.map ?_ (List.nodup_range n)
  intro s t hst
  exact_mod_cast add_left_cancel (show a + (s : ℤ) = a + (t : ℤ) from hst)

/-- Row-major index list of a doubly nested loop: j is the outer loop over
nj rows starting at j0, i the inner loop over ni columns starting at i0. -/
def loopIdx (i0 : ℤ) (ni : ℕ) (j0 : ℤ) (nj : ℕ) : List Cell :=
  (intRange j0 nj).flatMap (fun j => (intRange i0 ni).map (fun i => (i, j)))

theorem mem_loopIdx {i0 : ℤ} {ni : ℕ} {j0 : ℤ} {nj : ℕ} {c : Cell} :
    c ∈ loopIdx i0 ni j0 nj ↔
      (i0 ≤ c.1 ∧ c.1 < i0 + (ni : ℤ)) ∧ (j0 ≤ c.2 ∧ c.2 < j0 + (nj : ℤ)) := by
  unfold loopIdx
  constructor
  · intro h
    rcases List.mem_flatMap.mp h with ⟨j, hj, hc⟩
    rcases List.mem_map.mp hc with ⟨i, hi, rfl⟩
    exact ⟨mem_intRange.mp hi, mem_intRange.mp hj⟩
  · rintro ⟨hi, hj⟩
    refine List.mem_flatMap.mpr ⟨c.2, mem_intRange.mpr hj, ?_⟩
    exact List.mem_map.mpr ⟨c.1, mem_intRange.mpr hi, rfl⟩

theorem nodup_loopIdx (i0 : ℤ) (ni : ℕ) (j0 : ℤ) (nj : ℕ) :
    (loopIdx i0 ni j0 nj).Nodup := by
  unfold loopIdx
  refine List.nodup_flatMap.mpr ⟨?_, ?_⟩
  · intro j _
    refine List.Nodup.map ?_ (nodup_intRange i0 ni)
    intro s t hst
    exact congrArg Prod.fst hst
  · have h := nodup_intRange j0 nj
    refine List.Pairwise.imp ?_ h
    intro j1 j2 hne
    intro c hc1 hc2
    rcases List.mem_map.mp hc1 with ⟨i1, _, rfl⟩
    rcases List.mem_map.mp hc2 with ⟨i2, _, heq⟩
    exact hne (congrArg Prod.snd heq).symm

/-- Core loop-to-pointwise lemma: a fold of single-slot updates over a list of
pairwise distinct keys, where the stored value at key k may read the running
array only at k itself and at slots never written by the loop, equals the
pointwise map of the initial array. -/
theorem foldl_update_eq {κ β : Type} [DecidableEq κ] (l : List κ)
    (val : κ → (κ → β) → β)
    (hl : l.Nodup)
    (hval : ∀ k ∈ l, ∀ A B : κ → β,
      (∀ c, A c = B c ∨ (c ≠ k ∧ c ∈ l)) → val k A = val k B)
    (A : κ → β) :
    l.foldl (fun A k => Function.update A k (val k A)) A
      = fun k => if k ∈ l then val k A else A k := by
  induction l generalizing A with
  | nil => funext k; simp
  | cons a t ih =>
    have hat : a ∉ t := (List.nodup_cons.mp hl).1
    have htnd : t.Nodup := (List.nodup_cons.mp hl).2
    have hval' : ∀ k ∈ t, ∀ A B : κ → β,
        (∀ c, A c = B c ∨ (c ≠ k ∧ c ∈ t)) → val k A = val k B := by
      intro k hk A B h
      refine hval k (List.mem_cons_of_mem a hk) A B ?_
      intro c
      rcases h c with h1 | h2
      · exact Or.inl h1
      · exact Or.inr ⟨h2.1, List.mem_cons_of_mem a h2.2⟩
    have step : (a :: t).foldl (fun A k => Function.update A k (val k A)) A
        = t.foldl (fun A k => Function.update A k (val k A))
            (Function.update A a (val a A)) := rfl
    rw [step, ih htnd hval']
    funext k
    by_cases hkt : k ∈ t
    · have hk : k ∈ a :: t := List.mem_cons_of_mem a hkt
      have hka : k ≠ a := fun h => hat (h ▸ hkt)
      simp only [hkt, if_pos, hk]
      refine hval k hk _ A ?_
      intro c
      by_cases hca : c = a
      · exact Or.inr ⟨by rw [hca]; exact fun h => hat (h ▸ hkt), by
          rw [hca]; exact List.mem_cons_self a t⟩
      · exact Or.inl (Function.update_noteq hca _ A)
    · by_cases hka : k = a
      · subst hka
        simp only [hkt, if_neg, not_false_iff, List.mem_cons_self, if_pos]
        exact Function.update_same k (val k A) A
      · have : k ∉ a :: t := by
          intro h
          rcases List.mem_cons.mp h with h1 | h2
          · exact hka h1
          · exact hkt h2
        simp only [hkt, if_neg, not_false_iff, this]
        exact Function.update_noteq hka _ A

/-- Specialization of foldl_update_eq: the stored value reads only the updated
slot itself. -/
theorem foldl_update_self_eq {κ β : Type} [DecidableEq κ] (l : List κ)
    (g : κ → β → β) (hl : l.Nodup) (A : κ → β) :
    l.foldl (fun A k => Function.update A k (g k (A k))) A
      = fun k => if k ∈ l then g k (A k) else A k := by
  refine foldl_update_eq l (fun k A => g k (A k)) hl ?_ A
  intro k _ A B h
  rcases h k with h1 | h2
  · show g k (A k) = g k (B k)
    rw [h1]
  · exact absurd rfl h2.1

/-- Specialization of foldl_update_eq: the stored value does not read the
running array at all (for loops that read a snapshot taken before the loop). -/
theorem foldl_update_const_eq {κ β : Type} [DecidableEq κ] (l : List κ)
    (g : κ → β) (hl : l.Nodup) (A : κ → β) :
    l.foldl (fun A k => Function.update A k (g k)) A
      = fun k => if k ∈ l then g k else A k := by
  refine foldl_update_eq l (fun k _ => g k) hl ?_ A
  intro k _ A B _
  rfl

/-- Specialization of foldl_update_eq: the stored value at key k reads the
running array only at a source slot that the loop never writes. -/
theorem foldl_update_read_eq {κ β : Type} [DecidableEq κ] (l : List κ)
    (src : κ → κ) (f : κ → β → β) (hl : l.Nodup)
    (hsrc : ∀ k ∈ l, src k ∉ l) (A : κ → β) :
    l.foldl (fun A k => Function.update A k (f k (A (src k)))) A
      = fun k => if k ∈ l then f k (A (src k)) else A k := by
  refine foldl_update_eq l (fun k A => f k (A (src k))) hl ?_ A
  intro k hk A B h
  rcases h (src k) with h1 | h2
  · show f k (A (src k)) = f k (B (src k))
    rw [h1]
  · exact absurd h2.2 (hsrc k hk)

/-! ## Yee E-field update (claim C1)

yee_e_openacc of emf.c (ompss2_openacc tree, loop bounds j in 0..nx1+1 and
i in 0..nx0) and the ompss2-tree variant of the same kernel (loop bounds
j in 0..nx1+1 and i in 0..nx0+1). -/

/-- Electric and magnetic field plus current grid of one region: the slice
of t_emf and t_current state read and written by the Yee E update. -/
structure FieldState where
  E : Cell → Vfld ℚ
  B : Cell → Vfld ℚ
  J : Cell → Vfld ℚ

/-- Body of one iteration of the yee_e loops: the three += statements on
E[i + j*nrow_e], reading B at (i,j), (i-1,j), (i,j-1) and J at (i,j). -/
def yeeECell (B J : Cell → Vfld ℚ) (dt_dx dt_dy dt : ℚ) (c : Cell)
    (e : Vfld ℚ) : Vfld ℚ :=
  { x := e.x + (dt_dy * ((B c).z - (B (c.1, c.2 - 1)).z)) - dt * (J c).x
    y := e.y + (-dt_dx * ((B c).z - (B (c.1 - 1, c.2)).z)) - dt * (J c).y
    z := e.z + (dt_dx * ((B c).y - (B (c.1 - 1, c.2)).y)
          - dt_dy * ((B c).x - (B (c.1, c.2 - 1)).x)) - dt * (J c).z }

/-- yee_e_openacc of emf.c (ompss2_openacc tree): for j in 0..nx[1]+1,
for i in 0..nx[0], update E[i + j*nrow_e]. -/
def yee_e_openacc (B J : Cell → Vfld ℚ) (dt_dx dt_dy dt : ℚ)
    (nx0 nx1 : ℕ) (E : Cell → Vfld ℚ) : Cell → Vfld ℚ :=
  (loopIdx 0 (nx0 + 1) 0 (nx1 + 2)).foldl
    (fun E c => Function.update E c (yeeECell B J dt_dx dt_dy dt c (E c))) E

/-- yee_e_openacc of the ompss2 tree: same cell update, but the inner loop
runs i in 0..nx[0]+1, one column further. -/
def yee_e_ompss2 (B J : Cell → Vfld ℚ) (dt_dx dt_dy dt : ℚ)
    (nx0 nx1 : ℕ) (E : Cell → Vfld ℚ) : Cell → Vfld ℚ :=
  (loopIdx 0 (nx0 + 2) 0 (nx1 + 2)).foldl
    (fun E c => Function.update E c (yeeECell B J dt_dx dt_dy dt c (E c))) E

/-- The E phase of emf_advance_openacc: only the E grid of the state changes. -/
def advance_E (dt_dx dt_dy dt : ℚ) (nx0 nx1 : ℕ) (s : FieldState) : FieldState :=
  { s with E := yee_e_openacc s.B s.J dt_dx dt_dy dt nx0 nx1 s.E }

theorem yee_e_openacc_eq (B J : Cell → Vfld ℚ) (dtx dty dt : ℚ)
    (nx0 nx1 : ℕ) (E : Cell → Vfld ℚ) :
    yee_e_openacc B J dtx dty dt nx0 nx1 E = fun c =>
      if (0 ≤ c.1 ∧ c.1 ≤ (nx0 : ℤ)) ∧ (0 ≤ c.2 ∧ c.2 ≤ (nx1 : ℤ) + 1) then
        yeeECell B J dtx dty dt c (E c)
      else E c := by
  unfold yee_e_openacc
  rw [foldl_update_self_eq _ (fun c e => yeeECell B J dtx dty dt c e)
    (nodup_loopIdx _ _ _ _) E]
  funext c
  have hmem : c ∈ loopIdx 0 (nx0 + 1) 0 (nx1 + 2) ↔
      ((0 ≤ c.1 ∧ c.1 ≤ (nx0 : ℤ)) ∧ (0 ≤ c.2 ∧ c.2 ≤ (nx1 : ℤ) + 1)) := by
    rw [mem_loopIdx]
    push_cast
    omega
  by_cases h : (0 ≤ c.1 ∧ c.1 ≤ (nx0 : ℤ)) ∧ (0 ≤ c.2 ∧ c.2 ≤ (nx1 : ℤ) + 1)
  · rw [if_pos (hmem.mpr h), if_pos h]
  · rw [if_neg (fun hc => h (hmem.mp hc)), if_neg h]

theorem yee_e_ompss2_eq (B J : Cell → Vfld ℚ) (dtx dty dt : ℚ)
    (nx0 nx1 : ℕ) (E : Cell → Vfld ℚ) :
    yee_e_ompss2 B J dtx dty dt nx0 nx1 E = fun c =>
      if (0 ≤ c.1 ∧ c.1 ≤ (nx0 : ℤ) + 1) ∧ (0 ≤ c.2 ∧ c.2 ≤ (nx1 : ℤ) + 1) then
        yeeECell B J dtx dty dt c (E c)
      else E c := by
  unfold yee_e_ompss2
  rw [foldl_update_self_eq _ (fun c e => yeeECell B J dtx dty dt c e)
    (nodup_loopIdx _ _ _ _) E]
  funext c
  have hmem : c ∈ loopIdx 0 (nx0 + 2) 0 (nx1 + 2) ↔
      ((0 ≤ c.1 ∧ c.1 ≤ (nx0 : ℤ) + 1) ∧ (0 ≤ c.2 ∧ c.2 ≤ (nx1 : ℤ) + 1)) := by
    rw [mem_loopIdx]
    push_cast
    omega
  by_cases h : (0 ≤ c.1 ∧ c.1 ≤ (nx0 : ℤ) + 1) ∧ (0 ≤ c.2 ∧ c.2 ≤ (nx1 : ℤ) + 1)
  · rw [if_pos (hmem.mpr h), if_pos h]
  · rw [if_neg (fun hc => h (hmem.mp hc)), if_neg h]

/-- C1 (amended): one call of the ompss2_openacc E-field update adds to each
cell (i, j) with 0 <= i <= nx0 and 0 <= j <= nx1+1, and to no other cell,
exactly the increments E.x += dty*(B.z[i,j]-B.z[i,j-1]) - dt*J.x,
E.y += -dtx*(B.z[i,j]-B.z[i-1,j]) - dt*J.y and
E.z += dtx*(B.y[i,j]-B.y[i-1,j]) - dty*(B.x[i,j]-B.x[i,j-1]) - dt*J.z,
while B and J are unchanged.  The ompss2-tree variant of the kernel instead
runs i up to nx0+1, which is what forces the amendment. -/
theorem claim_C1_yee_e_update (dtx dty dt : ℚ) (nx0 nx1 : ℕ) (s : FieldState)
    (i j : ℤ) :
    ((advance_E dtx dty dt nx0 nx1 s).E (i, j) =
      (if (0 ≤ i ∧ i ≤ (nx0 : ℤ)) ∧ (0 ≤ j ∧ j ≤ (nx1 : ℤ) + 1) then
        { x := (s.E (i, j)).x
              + (dty * ((s.B (i, j)).z - (s.B (i, j - 1)).z)) - dt * (s.J (i, j)).x
          y := (s.E (i, j)).y
              + (-dtx * ((s.B (i, j)).z - (s.B (i - 1, j)).z)) - dt * (s.J (i, j)).y
          z := (s.E (i, j)).z
              + (dtx * ((s.B (i, j)).y - (s.B (i - 1, j)).y)
                 - dty * ((s.B (i, j)).x - (s.B (i, j - 1)).x)) - dt * (s.J (i, j)).z }
      else s.E (i, j)))
    ∧ (advance_E dtx dty dt nx0 nx1 s).B = s.B
    ∧ (advance_E dtx dty dt nx0 nx1 s).J = s.J := by
  refine ⟨?_, rfl, rfl⟩
  show yee_e_openacc s.B s.J dtx dty dt nx0 nx1 s.E (i, j) = _
  rw [yee_e_openacc_eq]
  rfl

/-- C1 (counterexample): in the ompss2-tree variant of yee_e, with nx0 = nx1 = 1,
E initially zero, J zero and B.z growing by one per column, the cell
(nx0+1, 0) = (2, 0), which lies outside the range 0 <= i <= nx0 stated by the
claim, changes its value.  So the claim is false for that cited implementation. -/
theorem claim_C1_counterexample :
    yee_e_ompss2 (fun c => ⟨0, 0, (c.1 : ℚ)⟩) (fun _ => ⟨0, 0, 0⟩) 1 1 1 1 1
        (fun _ => ⟨0, 0, 0⟩) ((2 : ℤ), (0 : ℤ))
      ≠ (⟨0, 0, 0⟩ : Vfld ℚ) := by
  rw [yee_e_ompss2_eq]
  simp [yeeECell]
  norm_num

/-! ## Guard cells in the x direction (claim C6)

emf_update_gc_x of emf.c: with the guard sizes gc = {{1,2},{1,2}} set by
emf_new, for every row j in -gc[1][0] .. nx[1]+gc[1][1]-1 the kernel stores
F[-1,j] := F[nx0-1,j] and then F[nx0+i,j] := F[i,j] for i = 0,1, for both
fields; with the moving window on it does nothing. -/

/-- Source slot of one guard-cell store: the lower guard i = -1 reads
nx0 + i, the upper guards nx0, nx0+1 read nx0 less. -/
def gcxSrc (nx0 : ℕ) (c : Cell) : Cell :=
  if c.1 < 0 then (c.1 + (nx0 : ℤ), c.2) else (c.1 - (nx0 : ℤ), c.2)

/-- Cells written by emf_update_gc_x, in loop order (rows outer, per row the
lower guard then the two upper guards). -/
def gcxTargets (nx0 nx1 : ℕ) : List Cell :=
  (intRange (-1) (nx1 + 3)).flatMap
    (fun j => [((-1 : ℤ), j), ((nx0 : ℤ), j), ((nx0 : ℤ) + 1, j)])

theorem mem_gcxTargets {nx0 nx1 : ℕ} {c : Cell} :
    c ∈ gcxTargets nx0 nx1 ↔
      (c.1 = -1 ∨ c.1 = (nx0 : ℤ) ∨ c.1 = (nx0 : ℤ) + 1)
        ∧ (-1 ≤ c.2 ∧ c.2 < (nx1 : ℤ) + 2) := by
  unfold gcxTargets
  rw [List.mem_flatMap]
  constructor
  · rintro ⟨j, hj, hc⟩
    have hj2 := mem_intRange.mp hj
    have hj3 : -1 ≤ j ∧ j < (nx1 : ℤ) + 2 := by
      push_cast at hj2
      omega
    simp only [List.mem_cons, List.not_mem_nil, or_false] at hc
    rcases hc with h | h | h
    · subst h; exact ⟨Or.inl rfl, hj3⟩
    · subst h; exact ⟨Or.inr (Or.inl rfl), hj3⟩
    · subst h; exact ⟨Or.inr (Or.inr rfl), hj3⟩
  · rintro ⟨h1, h2⟩
    refine ⟨c.2, mem_intRange.mpr (by push_cast; omega), ?_⟩
    simp only [List.mem_cons, List.not_mem_nil, or_false]
    rcases h1 with h | h | h
    · exact Or.inl (by rw [← h])
    · exact Or.inr (Or.inl (by rw [← h]))
    · exact Or.inr (Or.inr (by rw [← h]))

theorem nodup_gcxTargets (nx0 nx1 : ℕ) : (gcxTargets nx0 nx1).Nodup := by
  unfold gcxTargets
  refine List.nodup_flatMap.mpr ⟨?_, ?_⟩
  · intro j _
    have h0 : (0 : ℤ) ≤ (nx0 : ℤ) := Int.ofNat_nonneg nx0
    have h1 : ((-1 : ℤ), j) ≠ ((nx0 : ℤ), j) := by
      intro h
      have := congrArg Prod.fst h
      simp only at this
      omega
    have h2 : ((-1 : ℤ), j) ≠ ((nx0 : ℤ) + 1, j) := by
      intro h
      have := congrArg Prod.fst h
      simp only at this
      omega
    have h3 : ((nx0 : ℤ), j) ≠ ((nx0 : ℤ) + 1, j) := by
      intro h
      have := congrArg Prod.fst h
      simp only at this
      omega
    simp [List.nodup_cons, h1, h2, h3]
  · have h := nodup_intRange (-1) (nx1 + 3)
    refine List.Pairwise.imp ?_ h
    intro j1 j2 hne
    intro c hc1 hc2
    simp only [List.mem_cons, List.not_mem_nil, or_false] at hc1 hc2
    have e1 : c.2 = j1 := by
      rcases hc1 with h | h | h
      all_goals (subst h; rfl)
    have e2 : c.2 = j2 := by
      rcases hc2 with h | h | h
      all_goals (subst h; rfl)
    exact hne (e1 ▸ e2)

/-- emf_update_gc_x of emf.c, acting on one of the two fields (the source
performs the identical stores on E and on B). -/
def emf_update_gc_x (moving_window : Bool) (nx0 nx1 : ℕ)
    (F : Cell → Vfld ℚ) : Cell → Vfld ℚ :=
  if moving_window then F
  else
    (gcxTargets nx0 nx1).foldl
      (fun F c => Function.update F c (F (gcxSrc nx0 c))) F

theorem emf_update_gc_x_eq (nx0 nx1 : ℕ) (hnx : 2 ≤ nx0) (F : Cell → Vfld ℚ) :
    emf_update_gc_x false nx0 nx1 F = fun c =>
      if c ∈ gcxTargets nx0 nx1 then F (gcxSrc nx0 c) else F c := by
  have h0 : (0 : ℤ) ≤ (nx0 : ℤ) := Int.ofNat_nonneg nx0
  have hsrc : ∀ c ∈ gcxTargets nx0 nx1, gcxSrc nx0 c ∉ gcxTargets nx0 nx1 := by
    intro c hc hmem
    have h1 := (mem_gcxTargets.mp hc).1
    have h2 := (mem_gcxTargets.mp hmem).1
    have h3 : (gcxSrc nx0 c).1
        = if c.1 < 0 then c.1 + (nx0 : ℤ) else c.1 - (nx0 : ℤ) := by
      unfold gcxSrc
      by_cases hlt : c.1 < 0
      · rw [if_pos hlt, if_pos hlt]
      · rw [if_neg hlt, if_neg hlt]
    rw [h3] at h2
    have hcast : (2 : ℤ) ≤ (nx0 : ℤ) := by exact_mod_cast hnx
    rcases h1 with h | h | h
    all_goals rw [h] at h2
    · rw [if_pos (by omega)] at h2
      omega
    · rw [if_neg (by omega)] at h2
      omega
    · rw [if_neg (by omega)] at h2
      omega
  unfold emf_update_gc_x
  rw [if_neg (by simp)]
  have h := foldl_update_read_eq (gcxTargets nx0 nx1) (gcxSrc nx0) (fun _ v => v)
    (nodup_gcxTargets nx0 nx1) hsrc F
  rw [h]
  funext c
  by_cases hc : c ∈ gcxTargets nx0 nx1
  · rw [if_pos hc, if_pos hc]
  · rw [if_neg hc, if_neg hc]

/-- C6: with the moving window off and nx0 at least two columns, after the
x guard-cell update every row j of the updated field satisfies
F[-1,j] = F[nx0-1,j], F[nx0,j] = F[0,j] and F[nx0+1,j] = F[1,j] in all
components; with the moving window on the update leaves the field untouched. -/
theorem claim_C6_gc_x (nx0 nx1 : ℕ) (hnx : 2 ≤ nx0) (F : Cell → Vfld ℚ) :
    (∀ j : ℤ, -1 ≤ j → j < (nx1 : ℤ) + 2 →
      emf_update_gc_x false nx0 nx1 F (-1, j)
          = emf_update_gc_x false nx0 nx1 F ((nx0 : ℤ) - 1, j)
        ∧ emf_update_gc_x false nx0 nx1 F ((nx0 : ℤ), j)
          = emf_update_gc_x false nx0 nx1 F (0, j)
        ∧ emf_update_gc_x false nx0 nx1 F ((nx0 : ℤ) + 1, j)
          = emf_update_gc_x false nx0 nx1 F (1, j))
    ∧ emf_update_gc_x true nx0 nx1 F = F := by
  have h0 : (0 : ℤ) ≤ (nx0 : ℤ) := Int.ofNat_nonneg nx0
  constructor
  · intro j hj1 hj2
    simp only [emf_update_gc_x_eq nx0 nx1 hnx F]
    have hnot : ∀ i : ℤ, 0 ≤ i → i < (nx0 : ℤ) → ((i, j) : Cell) ∉ gcxTargets nx0 nx1 := by
      intro i h1 h2 hmem
      have h := (mem_gcxTargets.mp hmem).1
      simp only at h
      omega
    refine ⟨?_, ?_, ?_⟩
    · rw [if_pos (mem_gcxTargets.mpr ⟨Or.inl rfl, hj1, hj2⟩),
        if_neg (hnot _ (by omega) (by omega))]
      show F (gcxSrc nx0 (-1, j)) = F ((nx0 : ℤ) - 1, j)
      unfold gcxSrc
      rw [if_pos (by norm_num)]
      apply congrArg F
      rw [Prod.mk.injEq]
      exact ⟨by ring, rfl⟩
    · rw [if_pos (mem_gcxTargets.mpr ⟨Or.inr (Or.inl rfl), hj1, hj2⟩),
        if_neg (hnot _ (by omega) (by omega))]
      show F (gcxSrc nx0 ((nx0 : ℤ), j)) = F (0, j)
      unfold gcxSrc
      rw [if_neg (by omega)]
      apply congrArg F
      rw [Prod.mk.injEq]
      exact ⟨by ring, rfl⟩
    · rw [if_pos (mem_gcxTargets.mpr ⟨Or.inr (Or.inr rfl), hj1, hj2⟩),
        if_neg (hnot _ (by omega) (by omega))]
      show F (gcxSrc nx0 ((nx0 : ℤ) + 1, j)) = F (1, j)
      unfold gcxSrc
      rw [if_neg (by omega)]
      apply congrArg F
      rw [Prod.mk.injEq]
      exact ⟨by ring, rfl⟩
  · rfl

/-- C6 witness: the theorem applied at nx0 = 2, nx1 = 0 and a concrete field. -/
theorem claim_C6_gc_x_witness :
    2 ≤ 2 ∧
    ((∀ j : ℤ, -1 ≤ j → j < (0 : ℤ) + 2 →
      emf_update_gc_x false 2 0 (fun c => ⟨(c.1 : ℚ), (c.2 : ℚ), 0⟩) (-1, j)
          = emf_update_gc_x false 2 0 (fun c => ⟨(c.1 : ℚ), (c.2 : ℚ), 0⟩) ((2 : ℤ) - 1, j)
        ∧ emf_update_gc_x false 2 0 (fun c => ⟨(c.1 : ℚ), (c.2 : ℚ), 0⟩) ((2 : ℤ), j)
          = emf_update_gc_x false 2 0 (fun c => ⟨(c.1 : ℚ), (c.2 : ℚ), 0⟩) (0, j)
        ∧ emf_update_gc_x false 2 0 (fun c => ⟨(c.1 : ℚ), (c.2 : ℚ), 0⟩) ((2 : ℤ) + 1, j)
          = emf_update_gc_x false 2 0 (fun c => ⟨(c.1 : ℚ), (c.2 : ℚ), 0⟩) (1, j))
    ∧ emf_update_gc_x true 2 0 (fun c => ⟨(c.1 : ℚ), (c.2 : ℚ), 0⟩)
        = fun c => ⟨(c.1 : ℚ), (c.2 : ℚ), 0⟩) := by
  exact ⟨le_refl 2, claim_C6_gc_x 2 0 (le_refl 2) _⟩

/-! ## Moving window in emf_advance (claim C5)

emf_advance_openacc of emf.c: iter is incremented, the shift flag is
iter*dt > dx[0]*(n_move+1), the three Yee passes run, and with the moving
window on a true shift flag moves both field buffers left by one cell and
increments n_move.  The shift is modeled after the ompss2-tree
emf_move_window_openacc, which copies the buffers and then writes every
buffer slot from the copy: slot i of a row (cell coordinate ci = i - gc[0][0],
ci in -1..nx0+1) receives the old slot i+1 when i < gc[0][0]+nx0-1 and zero
otherwise. -/

/-- Body of one iteration of the yee_b loops: the three += statements on
B[i + j*nrow], reading E at (i,j), (i+1,j), (i,j+1). -/
def yeeBCell (E : Cell → Vfld ℚ) (dt_dx dt_dy : ℚ) (c : Cell)
    (b : Vfld ℚ) : Vfld ℚ :=
  { x := b.x + (-dt_dy * ((E (c.1, c.2 + 1)).z - (E c).z))
    y := b.y + (dt_dx * ((E (c.1 + 1, c.2)).z - (E c).z))
    z := b.z + (-dt_dx * ((E (c.1 + 1, c.2)).y - (E c).y)
          + dt_dy * ((E (c.1, c.2 + 1)).x - (E c).x)) }

/-- yee_b_openacc of emf.c: for j in -1..nx[1], for i in -1..nx[0],
update B[i + j*nrow]. -/
def yee_b_openacc (E : Cell → Vfld ℚ) (dt_dx dt_dy : ℚ)
    (nx0 nx1 : ℕ) (B : Cell → Vfld ℚ) : Cell → Vfld ℚ :=
  (loopIdx (-1) (nx0 + 2) (-1) (nx1 + 2)).foldl
    (fun B c => Function.update B c (yeeBCell E dt_dx dt_dy c (B c))) B

/-- emf_move_window_openacc acting on one field buffer, in cell coordinates:
every row of cells ci in -1..nx0+1 receives the old cell ci+1 when
ci < nx0 - 1 and the zero field otherwise. -/
def emf_move_window_field (nx0 nx1 : ℕ) (F : Cell → Vfld ℚ) : Cell → Vfld ℚ :=
  (loopIdx (-1) (nx0 + 3) (-1) (nx1 + 3)).foldl
    (fun A c => Function.update A c
      (if c.1 < (nx0 : ℤ) - 1 then F (c.1 + 1, c.2) else 0)) F

theorem emf_move_window_field_eq (nx0 nx1 : ℕ) (F : Cell → Vfld ℚ) :
    emf_move_window_field nx0 nx1 F = fun c =>
      if (-1 ≤ c.1 ∧ c.1 ≤ (nx0 : ℤ) + 1) ∧ (-1 ≤ c.2 ∧ c.2 ≤ (nx1 : ℤ) + 1) then
        (if c.1 < (nx0 : ℤ) - 1 then F (c.1 + 1, c.2) else 0)
      else F c := by
  unfold emf_move_window_field
  rw [foldl_update_const_eq _
    (fun c => if c.1 < (nx0 : ℤ) - 1 then F (c.1 + 1, c.2) else 0)
    (nodup_loopIdx _ _ _ _) F]
  funext c
  have hmem : c ∈ loopIdx (-1) (nx0 + 3) (-1) (nx1 + 3) ↔
      ((-1 ≤ c.1 ∧ c.1 ≤ (nx0 : ℤ) + 1) ∧ (-1 ≤ c.2 ∧ c.2 ≤ (nx1 : ℤ) + 1)) := by
    rw [mem_loopIdx]
    push_cast
    omega
  by_cases h : (-1 ≤ c.1 ∧ c.1 ≤ (nx0 : ℤ) + 1) ∧ (-1 ≤ c.2 ∧ c.2 ≤ (nx1 : ℤ) + 1)
  · rw [if_pos (hmem.mpr h), if_pos h]
  · rw [if_neg (fun hc => h (hmem.mp hc)), if_neg h]

/-- Electric and magnetic grids plus iteration and window counters: the slice
of t_emf state read and written by emf_advance_openacc. -/
structure Emf where
  E : Cell → Vfld ℚ
  B : Cell → Vfld ℚ
  iter : ℤ
  n_move : ℤ
  moving_window : Bool

/-- The E field after the first Yee half step for B and the full E step of
emf_advance_openacc. -/
def emf_yee_E (dt dx0 dx1 : ℚ) (nx0 nx1 : ℕ) (J : Cell → Vfld ℚ)
    (emf : Emf) : Cell → Vfld ℚ :=
  yee_e_openacc
    (yee_b_openacc emf.E (dt / dx0 / 2) (dt / dx1 / 2) nx0 nx1 emf.B)
    J (dt / dx0) (dt / dx1) dt nx0 nx1 emf.E

/-- The B field after the three Yee passes of emf_advance_openacc. -/
def emf_yee_B (dt dx0 dx1 : ℚ) (nx0 nx1 : ℕ) (J : Cell → Vfld ℚ)
    (emf : Emf) : Cell → Vfld ℚ :=
  yee_b_openacc (emf_yee_E dt dx0 dx1 nx0 nx1 J emf)
    (dt / dx0 / 2) (dt / dx1 / 2) nx0 nx1
    (yee_b_openacc emf.E (dt / dx0 / 2) (dt / dx1 / 2) nx0 nx1 emf.B)

/-- emf_advance_openacc of emf.c: increment iter, compute the shift flag,
run the Yee passes, then either shift the window (moving window mode, flag
set), do nothing more (moving window mode, flag clear), or refresh the x
guard cells (periodic mode). -/
def emf_advance_openacc (dt dx0 dx1 : ℚ) (nx0 nx1 : ℕ)
    (J : Cell → Vfld ℚ) (emf : Emf) : Emf :=
  let iter1 := emf.iter + 1
  let E1 := emf_yee_E dt dx0 dx1 nx0 nx1 J emf
  let B2 := emf_yee_B dt dx0 dx1 nx0 nx1 J emf
  if emf.moving_window then
    if ((iter1 : ℚ) * dt) > dx0 * ((emf.n_move : ℚ) + 1) then
      { E := emf_move_window_field nx0 nx1 E1
        B := emf_move_window_field nx0 nx1 B2
        iter := iter1
        n_move := emf.n_move + 1
        moving_window := emf.moving_window }
    else
      { emf with E := E1, B := B2, iter := iter1 }
  else
    { emf with
        E := emf_update_gc_x false nx0 nx1 E1
        B := emf_update_gc_x false nx0 nx1 B2
        iter := iter1 }

/-- C5: with the moving window enabled, emf_advance shifts the fields exactly
when iter*dt (with iter the incremented iteration count) exceeds
dx[0]*(n_move+1): then every row of the Yee-advanced E and B buffers is
shifted left by one cell, the cells from the rightmost interior cell nx0-1
through the right guard cells are zeroed, and n_move increments by one;
otherwise the fields are exactly the Yee-advanced fields, no cell is shifted,
and n_move is unchanged. -/
theorem claim_C5_moving_window (dt dx0 dx1 : ℚ) (nx0 nx1 : ℕ)
    (J : Cell → Vfld ℚ) (emf : Emf) (hmw : emf.moving_window = true) :
    ((((emf.iter + 1 : ℤ) : ℚ) * dt > dx0 * ((emf.n_move : ℚ) + 1)) →
      (emf_advance_openacc dt dx0 dx1 nx0 nx1 J emf).n_move = emf.n_move + 1
      ∧ (emf_advance_openacc dt dx0 dx1 nx0 nx1 J emf).iter = emf.iter + 1
      ∧ (∀ i j : ℤ, -1 ≤ i → i < (nx0 : ℤ) - 1 → -1 ≤ j → j ≤ (nx1 : ℤ) + 1 →
          (emf_advance_openacc dt dx0 dx1 nx0 nx1 J emf).E (i, j)
            = emf_yee_E dt dx0 dx1 nx0 nx1 J emf (i + 1, j)
          ∧ (emf_advance_openacc dt dx0 dx1 nx0 nx1 J emf).B (i, j)
            = emf_yee_B dt dx0 dx1 nx0 nx1 J emf (i + 1, j))
      ∧ (∀ i j : ℤ, (nx0 : ℤ) - 1 ≤ i → i ≤ (nx0 : ℤ) + 1 → -1 ≤ j → j ≤ (nx1 : ℤ) + 1 →
          (emf_advance_openacc dt dx0 dx1 nx0 nx1 J emf).E (i, j) = 0
          ∧ (emf_advance_openacc dt dx0 dx1 nx0 nx1 J emf).B (i, j) = 0))
    ∧ (¬ (((emf.iter + 1 : ℤ) : ℚ) * dt > dx0 * ((emf.n_move : ℚ) + 1)) →
      (emf_advance_openacc dt dx0 dx1 nx0 nx1 J emf).n_move = emf.n_move
      ∧ (emf_advance_openacc dt dx0 dx1 nx0 nx1 J emf).iter = emf.iter + 1
      ∧ (emf_advance_openacc dt dx0 dx1 nx0 nx1 J emf).E
          = emf_yee_E dt dx0 dx1 nx0 nx1 J emf
      ∧ (emf_advance_openacc dt dx0 dx1 nx0 nx1 J emf).B
          = emf_yee_B dt dx0 dx1 nx0 nx1 J emf) := by
  constructor
  · intro hshift
    have hadv : emf_advance_openacc dt dx0 dx1 nx0 nx1 J emf =
        { E := emf_move_window_field nx0 nx1 (emf_yee_E dt dx0 dx1 nx0 nx1 J emf)
          B := emf_move_window_field nx0 nx1 (emf_yee_B dt dx0 dx1 nx0 nx1 J emf)
          iter := emf.iter + 1
          n_move := emf.n_move + 1
          moving_window := emf.moving_window } := by
      unfold emf_advance_openacc
      rw [if_pos hmw, if_pos hshift]
    rw [hadv]
    refine ⟨rfl, rfl, ?_, ?_⟩
    · intro i j hi1 hi2 hj1 hj2
      constructor
      all_goals
        simp only [emf_move_window_field_eq]
        rw [if_pos ⟨⟨by omega, by omega⟩, ⟨hj1, hj2⟩⟩, if_pos (by omega)]
    · intro i j hi1 hi2 hj1 hj2
      constructor
      all_goals
        simp only [emf_move_window_field_eq]
        rw [if_pos ⟨⟨by omega, by omega⟩, ⟨hj1, hj2⟩⟩, if_neg (by omega)]
  · intro hshift
    have hadv : emf_advance_openacc dt dx0 dx1 nx0 nx1 J emf =
        { emf with
            E := emf_yee_E dt dx0 dx1 nx0 nx1 J emf
            B := emf_yee_B dt dx0 dx1 nx0 nx1 J emf
            iter := emf.iter + 1 } := by
      unfold emf_advance_openacc
      rw [if_pos hmw, if_neg hshift]
    rw [hadv]
    exact ⟨rfl, rfl, rfl, rfl⟩

/-- C5 witness: the theorem applied to a concrete moving-window state in which
the shift condition is false. -/
theorem claim_C5_moving_window_witness :
    (Emf.mk (fun _ => 0) (fun _ => 0) 0 0 true).moving_window = true ∧
    ((((((Emf.mk (fun _ => 0) (fun _ => 0) 0 0 true).iter + 1 : ℤ) : ℚ) * 1
        > 1 * (((Emf.mk (fun _ => 0) (fun _ => 0) 0 0 true).n_move : ℚ) + 1)) →
      (emf_advance_openacc 1 1 1 1 1 (fun _ => 0)
          (Emf.mk (fun _ => 0) (fun _ => 0) 0 0 true)).n_move
        = (Emf.mk (fun _ => 0) (fun _ => 0) 0 0 true).n_move + 1
      ∧ (emf_advance_openacc 1 1 1 1 1 (fun _ => 0)
          (Emf.mk (fun _ => 0) (fun _ => 0) 0 0 true)).iter
        = (Emf.mk (fun _ => 0) (fun _ => 0) 0 0 true).iter + 1
      ∧ (∀ i j : ℤ, -1 ≤ i → i < ((1 : ℕ) : ℤ) - 1 → -1 ≤ j → j ≤ ((1 : ℕ) : ℤ) + 1 →
          (emf_advance_openacc 1 1 1 1 1 (fun _ => 0)
              (Emf.mk (fun _ => 0) (fun _ => 0) 0 0 true)).E (i, j)
            = emf_yee_E 1 1 1 1 1 (fun _ => 0)
                (Emf.mk (fun _ => 0) (fun _ => 0) 0 0 true) (i + 1, j)
          ∧ (emf_advance_openacc 1 1 1 1 1 (fun _ => 0)
              (Emf.mk (fun _ => 0) (fun _ => 0) 0 0 true)).B (i, j)
            = emf_yee_B 1 1 1 1 1 (fun _ => 0)
                (Emf.mk (fun _ => 0) (fun _ => 0) 0 0 true) (i + 1, j))
      ∧ (∀ i j : ℤ, ((1 : ℕ) : ℤ) - 1 ≤ i → i ≤ ((1 : ℕ) : ℤ) + 1 → -1 ≤ j → j ≤ ((1 : ℕ) : ℤ) + 1 →
          (emf_advance_openacc 1 1 1 1 1 (fun _ => 0)
              (Emf.mk (fun _ => 0) (fun _ => 0) 0 0 true)).E (i, j) = 0
          ∧ (emf_advance_openacc 1 1 1 1 1 (fun _ => 0)
              (Emf.mk (fun _ => 0) (fun _ => 0) 0 0 true)).B (i, j) = 0))
    ∧ (¬ (((((Emf.mk (fun _ => 0) (fun _ => 0) 0 0 true).iter + 1 : ℤ) : ℚ) * 1
        > 1 * (((Emf.mk (fun _ => 0) (fun _ => 0) 0 0 true).n_move : ℚ) + 1))) →
      (emf_advance_openacc 1 1 1 1 1 (fun _ => 0)
          (Emf.mk (fun _ => 0) (fun _ => 0) 0 0 true)).n_move
        = (Emf.mk (fun _ => 0) (fun _ => 0) 0 0 true).n_move
      ∧ (emf_advance_openacc 1 1 1 1 1 (fun _ => 0)
          (Emf.mk (fun _ => 0) (fun _ => 0) 0 0 true)).iter
        = (Emf.mk (fun _ => 0) (fun _ => 0) 0 0 true).iter + 1
      ∧ (emf_advance_openacc 1 1 1 1 1 (fun _ => 0)
          (Emf.mk (fun _ => 0) (fun _ => 0) 0 0 true)).E
        = emf_yee_E 1 1 1 1 1 (fun _ => 0) (Emf.mk (fun _ => 0) (fun _ => 0) 0 0 true)
      ∧ (emf_advance_openacc 1 1 1 1 1 (fun _ => 0)
          (Emf.mk (fun _ => 0) (fun _ => 0) 0 0 true)).B
        = emf_yee_B 1 1 1 1 1 (fun _ => 0) (Emf.mk (fun _ => 0) (fun _ => 0) 0 0 true))) :=
  ⟨rfl, claim_C5_moving_window 1 1 1 1 1 (fun _ => 0)
    (Emf.mk (fun _ => 0) (fun _ => 0) 0 0 true) rfl⟩

/-! ## Laser validation and launch (claim C9)

emf_add_laser of emf.c: a nonzero fwhm must be positive and overrides
rise/fall/flat; then rise must be positive, flat nonnegative, fall positive,
each violation printing a message and calling exit(-1); a valid laser is then
added to the interior cells of E and B. -/

/-- Laser pulse type, enum emf_laser_type. -/
inductive LaserType where
  | PLANE : LaserType
  | GAUSSIAN : LaserType
deriving DecidableEq

/-- Laser pulse parameters, t_emf_laser (floats modeled as rationals). -/
structure Laser where
  type : LaserType
  start : ℚ
  fwhm : ℚ
  rise : ℚ
  flat : ℚ
  fall : ℚ
  a0 : ℚ
  omega0 : ℚ
  polarization : ℚ
  W0 : ℚ
  focus : ℚ
  axis : ℚ

/-- The laser after the fwhm override: a nonzero fwhm replaces rise and fall
and zeroes flat. -/
def effectiveLaser (l : Laser) : Laser :=
  if l.fwhm ≠ 0 then { l with rise := l.fwhm, fall := l.fwhm, flat := 0 } else l

/-- Two-argument arctangent, modeling the C library atan2 used by
gauss_phase. -/
noncomputable def atan2 (y x : ℝ) : ℝ :=
  if 0 < x then Real.arctan (y / x)
  else if x < 0 then
    (if 0 ≤ y then Real.arctan (y / x) + Real.pi else Real.arctan (y / x) - Real.pi)
  else
    (if 0 < y then Real.pi / 2 else if y < 0 then -(Real.pi / 2) else 0)

/-- gauss_phase of emf.c. -/
noncomputable def gauss_phase (l : Laser) (z r : ℝ) : ℝ :=
  let z0 : ℝ := (l.omega0 : ℝ) * ((l.W0 : ℝ) * (l.W0 : ℝ)) / 2
  let rho2 := r * r
  let curv := rho2 * z / (z0 * z0 + z * z)
  let rWl2 := (z0 * z0) / (z0 * z0 + z * z)
  let gouy_shift := atan2 z z0
  Real.sqrt (Real.sqrt rWl2) * Real.exp (-rho2 * rWl2 / ((l.W0 : ℝ) * (l.W0 : ℝ)))
    * Real.cos ((l.omega0 : ℝ) * (z + curv) - gouy_shift)

/-- lon_env of emf.c. -/
noncomputable def lon_env (l : Laser) (z : ℝ) : ℝ :=
  if z > (l.start : ℝ) then 0
  else if z > (l.start : ℝ) - (l.rise : ℝ) then
    let csi := z - (l.start : ℝ)
    let e := Real.sin (Real.pi / 2 * csi / (l.rise : ℝ))
    e * e
  else if z > (l.start : ℝ) - ((l.rise : ℝ) + (l.flat : ℝ)) then 1
  else if z > (l.start : ℝ) - ((l.rise : ℝ) + (l.flat : ℝ) + (l.fall : ℝ)) then
    let csi := z - ((l.start : ℝ) - (l.rise : ℝ) - (l.flat : ℝ) - (l.fall : ℝ))
    let e := Real.sin (Real.pi / 2 * csi / (l.fall : ℝ))
    e * e
  else 0

/-- Per-cell increment that the launch loop adds to E at cell c. -/
noncomputable def laserEInc (l : Laser) (dx dy : ℚ) (offset_y : ℤ)
    (c : Cell) : Vfld ℝ :=
  let z : ℝ := (c.1 : ℝ) * (dx : ℝ)
  let amp : ℝ := (l.omega0 : ℝ) * (l.a0 : ℝ)
  let lenv := amp * lon_env l z
  let cos_pol := Real.cos (l.polarization : ℝ)
  let sin_pol := Real.sin (l.polarization : ℝ)
  match l.type with
  | .PLANE =>
      ⟨0, lenv * Real.cos ((l.omega0 : ℝ) * z) * cos_pol,
          lenv * Real.cos ((l.omega0 : ℝ) * z) * sin_pol⟩
  | .GAUSSIAN =>
      let r : ℝ := ((c.2 + offset_y : ℤ) : ℝ) * (dy : ℝ) - (l.axis : ℝ)
      ⟨0, lenv * gauss_phase l z (r + (dy : ℝ) / 2) * cos_pol,
          lenv * gauss_phase l z r * sin_pol⟩

/-- Per-cell increment that the launch loop adds to B at cell c. -/
noncomputable def laserBInc (l : Laser) (dx dy : ℚ) (offset_y : ℤ)
    (c : Cell) : Vfld ℝ :=
  let z : ℝ := (c.1 : ℝ) * (dx : ℝ)
  let z2 : ℝ := z + (dx : ℝ) / 2
  let amp : ℝ := (l.omega0 : ℝ) * (l.a0 : ℝ)
  let lenv2 := amp * lon_env l z2
  let cos_pol := Real.cos (l.polarization : ℝ)
  let sin_pol := Real.sin (l.polarization : ℝ)
  match l.type with
  | .PLANE =>
      ⟨0, -(lenv2 * Real.cos ((l.omega0 : ℝ) * z2) * sin_pol),
          lenv2 * Real.cos ((l.omega0 : ℝ) * z2) * cos_pol⟩
  | .GAUSSIAN =>
      let r : ℝ := ((c.2 + offset_y : ℤ) : ℝ) * (dy : ℝ) - (l.axis : ℝ)
      ⟨0, -(lenv2 * gauss_phase l z2 r * sin_pol),
          lenv2 * gauss_phase l z2 (r + (dy : ℝ) / 2) * cos_pol⟩

/-- The launch loops of emf_add_laser: for i in 0..nx0-1, j in 0..nx1-1
add the laser increments to E and B. -/
noncomputable def emf_laser_launch (l : Laser) (dx dy : ℚ) (offset_y : ℤ)
    (nx0 nx1 : ℕ) (E B : Cell → Vfld ℝ) :
    (Cell → Vfld ℝ) × (Cell → Vfld ℝ) :=
  ((loopIdx 0 nx0 0 nx1).foldl
      (fun E c => Function.update E c (E c + laserEInc l dx dy offset_y c)) E,
   (loopIdx 0 nx0 0 nx1).foldl
      (fun B c => Function.update B c (B c + laserBInc l dx dy offset_y c)) B)

/-- Outcome check for the embedded fallible calls. -/
def exceptOk {ε α : Type} : Except ε α → Bool
  | .ok _ => true
  | .error _ => false

/-- emf_add_laser of emf.c: parameter validation (exit on failure, modeled as
an error result) followed by the launch loops. -/
noncomputable def emf_add_laser (nx0 nx1 : ℕ) (dx dy : ℚ) (offset_y : ℤ)
    (l : Laser) (E B : Cell → Vfld ℝ) :
    Except String ((Cell → Vfld ℝ) × (Cell → Vfld ℝ)) :=
  if l.fwhm ≠ 0 ∧ l.fwhm ≤ 0 then
    .error "Invalid laser FWHM, must be > 0, aborting."
  else if (effectiveLaser l).rise ≤ 0 then
    .error "Invalid laser RISE, must be > 0, aborting."
  else if (effectiveLaser l).flat < 0 then
    .error "Invalid laser FLAT, must be >= 0, aborting."
  else if (effectiveLaser l).fall ≤ 0 then
    .error "Invalid laser FALL, must be > 0, aborting."
  else
    .ok (emf_laser_launch (effectiveLaser l) dx dy offset_y nx0 nx1 E B)

/-- C9 (amended): emf_add_laser fails, before touching the fields, exactly
when fwhm is negative, or fwhm is zero (left unset) and rise is nonpositive,
flat negative or fall nonpositive; a positive fwhm overrides rise, flat and
fall, so their values are then irrelevant.  On success the call only adds the
laser source: each interior cell (i, j) with 0 <= i < nx0 and 0 <= j < nx1
gains the laser increment and every other cell of E and B is untouched. -/
theorem claim_C9_add_laser (nx0 nx1 : ℕ) (dx dy : ℚ) (offset_y : ℤ)
    (l : Laser) (E B : Cell → Vfld ℝ) :
    (exceptOk (emf_add_laser nx0 nx1 dx dy offset_y l E B) = true ↔
      (0 < l.fwhm ∨ (l.fwhm = 0 ∧ 0 < l.rise ∧ 0 ≤ l.flat ∧ 0 < l.fall)))
    ∧ (∀ E2 B2,
        emf_add_laser nx0 nx1 dx dy offset_y l E B = .ok (E2, B2) →
        (∀ c : Cell,
          E2 c = (if (0 ≤ c.1 ∧ c.1 < (nx0 : ℤ)) ∧ (0 ≤ c.2 ∧ c.2 < (nx1 : ℤ)) then
              E c + laserEInc (effectiveLaser l) dx dy offset_y c else E c)
          ∧ B2 c = (if (0 ≤ c.1 ∧ c.1 < (nx0 : ℤ)) ∧ (0 ≤ c.2 ∧ c.2 < (nx1 : ℤ)) then
              B c + laserBInc (effectiveLaser l) dx dy offset_y c else B c))) := by
  have hlaunch : ∀ l2 : Laser,
      emf_laser_launch l2 dx dy offset_y nx0 nx1 E B
        = (fun c => if (0 ≤ c.1 ∧ c.1 < (nx0 : ℤ)) ∧ (0 ≤ c.2 ∧ c.2 < (nx1 : ℤ)) then
              E c + laserEInc l2 dx dy offset_y c else E c,
           fun c => if (0 ≤ c.1 ∧ c.1 < (nx0 : ℤ)) ∧ (0 ≤ c.2 ∧ c.2 < (nx1 : ℤ)) then
              B c + laserBInc l2 dx dy offset_y c else B c) := by
    intro l2
    unfold emf_laser_launch
    have hmem : ∀ c : Cell, (c ∈ loopIdx 0 nx0 0 nx1 ↔
        ((0 ≤ c.1 ∧ c.1 < (nx0 : ℤ)) ∧ (0 ≤ c.2 ∧ c.2 < (nx1 : ℤ)))) := by
      intro c
      rw [mem_loopIdx]
      omega
    have hE : (loopIdx 0 nx0 0 nx1).foldl
        (fun E c => Function.update E c (E c + laserEInc l2 dx dy offset_y c)) E
        = fun c => if (0 ≤ c.1 ∧ c.1 < (nx0 : ℤ)) ∧ (0 ≤ c.2 ∧ c.2 < (nx1 : ℤ)) then
            E c + laserEInc l2 dx dy offset_y c else E c := by
      rw [foldl_update_self_eq _ (fun c e => e + laserEInc l2 dx dy offset_y c)
        (nodup_loopIdx _ _ _ _) E]
      funext c
      by_cases h : (0 ≤ c.1 ∧ c.1 < (nx0 : ℤ)) ∧ (0 ≤ c.2 ∧ c.2 < (nx1 : ℤ))
      · rw [if_pos ((hmem c).mpr h), if_pos h]
      · rw [if_neg (fun hc => h ((hmem c).mp hc)), if_neg h]
    have hB : (loopIdx 0 nx0 0 nx1).foldl
        (fun B c => Function.update B c (B c + laserBInc l2 dx dy offset_y c)) B
        = fun c => if (0 ≤ c.1 ∧ c.1 < (nx0 : ℤ)) ∧ (0 ≤ c.2 ∧ c.2 < (nx1 : ℤ)) then
            B c + laserBInc l2 dx dy offset_y c else B c := by
      rw [foldl_update_self_eq _ (fun c b => b + laserBInc l2 dx dy offset_y c)
        (nodup_loopIdx _ _ _ _) B]
      funext c
      by_cases h : (0 ≤ c.1 ∧ c.1 < (nx0 : ℤ)) ∧ (0 ≤ c.2 ∧ c.2 < (nx1 : ℤ))
      · rw [if_pos ((hmem c).mpr h), if_pos h]
      · rw [if_neg (fun hc => h ((hmem c).mp hc)), if_neg h]
    rw [hE, hB]
  unfold emf_add_laser
  by_cases h1 : l.fwhm ≠ 0 ∧ l.fwhm ≤ 0
  · rw [if_pos h1]
    constructor
    · constructor
      · intro h
        exact absurd h (by simp [exceptOk])
      · intro h
        rcases h with h | h
        · exact absurd h1.2 (by linarith)
        · exact absurd h.1 h1.1
    · intro E2 B2 heq
      exact absurd heq (by simp)
  · rw [if_neg h1]
    have hfe : effectiveLaser l = if l.fwhm ≠ 0 then
        { l with rise := l.fwhm, fall := l.fwhm, flat := 0 } else l := rfl
    by_cases h0 : l.fwhm = 0
    · have hfe0 : effectiveLaser l = l := by
        rw [hfe, if_neg (by simpa using h0)]
      rw [hfe0]
      by_cases h2 : l.rise ≤ 0
      · rw [if_pos h2]
        refine ⟨⟨fun h => absurd h (by simp [exceptOk]), fun h => ?_⟩,
          fun E2 B2 heq => absurd heq (by simp)⟩
        rcases h with h | h
        · exact absurd h0 (by intro hc; rw [hc] at h; exact lt_irrefl 0 h)
        · exact absurd h.2.1 (by linarith)
      · rw [if_neg h2]
        by_cases h3 : l.flat < 0
        · rw [if_pos h3]
          refine ⟨⟨fun h => absurd h (by simp [exceptOk]), fun h => ?_⟩,
            fun E2 B2 heq => absurd heq (by simp)⟩
          rcases h with h | h
          · exact absurd h0 (by intro hc; rw [hc] at h; exact lt_irrefl 0 h)
          · exact absurd h.2.2.1 (by linarith)
        · rw [if_neg h3]
          by_cases h4 : l.fall ≤ 0
          · rw [if_pos h4]
            refine ⟨⟨fun h => absurd h (by simp [exceptOk]), fun h => ?_⟩,
              fun E2 B2 heq => absurd heq (by simp)⟩
            rcases h with h | h
            · exact absurd h0 (by intro hc; rw [hc] at h; exact lt_irrefl 0 h)
            · exact absurd h.2.2.2 (by linarith)
          · rw [if_neg h4]
            refine ⟨⟨fun _ => Or.inr ⟨h0, by linarith, by linarith, by linarith⟩,
              fun _ => by simp [exceptOk]⟩, ?_⟩
            intro E2 B2 heq
            rw [hlaunch l] at heq
            have hE := congrArg Prod.fst (Except.ok.inj heq)
            have hB := congrArg Prod.snd (Except.ok.inj heq)
            intro c
            exact ⟨(congrFun hE c).symm, (congrFun hB c).symm⟩
    · have hpos : 0 < l.fwhm := by
        rcases lt_trichotomy l.fwhm 0 with h | h | h
        · exact absurd ⟨by intro hc; rw [hc] at h; exact lt_irrefl 0 h, le_of_lt h⟩ h1
        · exact absurd h h0
        · exact h
      have hfe1 : effectiveLaser l
          = { l with rise := l.fwhm, fall := l.fwhm, flat := 0 } := by
        rw [hfe, if_pos (by simpa using h0)]
      rw [hfe1]
      rw [if_neg (by show ¬ l.fwhm ≤ 0; linarith),
        if_neg (by show ¬ (0 : ℚ) < 0; exact lt_irrefl 0),
        if_neg (by show ¬ l.fwhm ≤ 0; linarith)]
      refine ⟨⟨fun _ => Or.inl hpos, fun _ => by simp [exceptOk]⟩, ?_⟩
      intro E2 B2 heq
      rw [hlaunch _] at heq
      have hE := congrArg Prod.fst (Except.ok.inj heq)
      have hB := congrArg Prod.snd (Except.ok.inj heq)
      intro c
      exact ⟨(congrFun hE c).symm, (congrFun hB c).symm⟩

/-- C9 (counterexample): the laser with fwhm = 0 (the unset sentinel),
rise = 1, flat = 0, fall = 1 has a nonpositive FWHM, so the claim says
emf_add_laser must fail on it, yet the call succeeds. -/
theorem claim_C9_counterexample :
    exceptOk (emf_add_laser 1 1 1 1 0
      (Laser.mk LaserType.PLANE 0 0 1 0 1 1 1 0 1 0 0)
      (fun _ => 0) (fun _ => 0)) = true := by
  rfl

/-! ## Exclusive prefix sum (claim C7)

prefix_sum_openacc_min and prefix_sum_openacc_full of kernel_particles.c:
a Blelloch scan (binomial-tree up-sweep, then down-sweep) on blocks of
MIN_WARP_SIZE = 32 = 2^5 respectively LOCAL_BUFFER_SIZE elements, followed by
a recursive scan of the per-block totals whose results are added to every
block but the first.  Block sizes are modeled as 2^(k+1); LOCAL_BUFFER_SIZE
is defined in a header that is not part of the sources, so the full variant
and the dispatcher are parametric in the block exponent. -/

/-- Pair-update loop lemma: a fold over pairwise distinct keys k, each
iteration writing the two slots f k and k from the values both slots held on
entry to the iteration, with no slot shared between iterations. -/
theorem foldl_update2_eq {κ β : Type} [DecidableEq κ] (l : List κ)
    (f : κ → κ) (g1 g2 : β → β → β)
    (hl : l.Nodup)
    (hfl : ∀ k ∈ l, f k ∉ l)
    (hinj : ∀ k1 ∈ l, ∀ k2 ∈ l, k1 ≠ k2 → f k1 ≠ f k2)
    (A : κ → β) :
    (∀ j ∈ l,
        l.foldl (fun A k =>
          Function.update (Function.update A (f k) (g1 (A k) (A (f k)))) k
            (g2 (A k) (A (f k)))) A j
          = g2 (A j) (A (f j))
      ∧ l.foldl (fun A k =>
          Function.update (Function.update A (f k) (g1 (A k) (A (f k)))) k
            (g2 (A k) (A (f k)))) A (f j)
          = g1 (A j) (A (f j)))
    ∧ (∀ j, j ∉ l → (∀ k ∈ l, f k ≠ j) →
        l.foldl (fun A k =>
          Function.update (Function.update A (f k) (g1 (A k) (A (f k)))) k
            (g2 (A k) (A (f k)))) A j
          = A j) := by
  induction l generalizing A with
  | nil =>
    exact ⟨fun j hj => absurd hj (List.not_mem_nil j), fun j _ _ => rfl⟩
  | cons a t ih =>
    have hat : a ∉ t := (List.nodup_cons.mp hl).1
    have htnd : t.Nodup := (List.nodup_cons.mp hl).2
    have hfa : f a ≠ a := by
      intro h
      apply hfl a (List.mem_cons_self a t)
      rw [h]
      exact List.mem_cons_self a t
    set A1 : κ → β :=
      Function.update (Function.update A (f a) (g1 (A a) (A (f a)))) a
        (g2 (A a) (A (f a))) with hA1
    have hstep : ∀ j, j ≠ a → j ≠ f a → A1 j = A j := by
      intro j h1 h2
      rw [hA1, Function.update_noteq h1, Function.update_noteq h2]
    have ihh := ih htnd
      (fun k hk => fun hc => hfl k (List.mem_cons_of_mem a hk) (List.mem_cons_of_mem a hc))
      (fun k1 hk1 k2 hk2 hne =>
        hinj k1 (List.mem_cons_of_mem a hk1) k2 (List.mem_cons_of_mem a hk2) hne)
      A1
    have hfold : (a :: t).foldl (fun A k =>
        Function.update (Function.update A (f k) (g1 (A k) (A (f k)))) k
          (g2 (A k) (A (f k)))) A
        = t.foldl (fun A k =>
        Function.update (Function.update A (f k) (g1 (A k) (A (f k)))) k
          (g2 (A k) (A (f k)))) A1 := rfl
    constructor
    · intro j hj
      rcases List.mem_cons.mp hj with hja | hjt
      · subst hja
        have hjnt : j ∉ t := hat
        have hfjnt : ∀ k ∈ t, f k ≠ j := by
          intro k hk hc
          exact hfl k (List.mem_cons_of_mem j hk) (hc ▸ List.mem_cons_self j t)
        have hfj_nt : f j ∉ t := fun hc =>
          hfl j (List.mem_cons_self j t) (List.mem_cons_of_mem j hc)
        have hffj : ∀ k ∈ t, f k ≠ f j := by
          intro k hk hc
          exact hinj k (List.mem_cons_of_mem j hk) j (List.mem_cons_self j t)
            (fun he => hat (he ▸ hk)) hc
        constructor
        · rw [hfold, ihh.2 j hjnt hfjnt, hA1, Function.update_same]
        · rw [hfold, ihh.2 (f j) hfj_nt hffj, hA1,
            Function.update_noteq hfa, Function.update_same]
      · have hja : j ≠ a := fun h => hat (h ▸ hjt)
        have hjfa : j ≠ f a := by
          intro h
          exact hfl a (List.mem_cons_self a t) (h ▸ List.mem_cons_of_mem a hjt)
        have hfja : f j ≠ a := by
          intro h
          exact hfl j (List.mem_cons_of_mem a hjt) (h ▸ List.mem_cons_self a t)
        have hfjfa : f j ≠ f a := hinj j (List.mem_cons_of_mem a hjt) a
          (List.mem_cons_self a t) hja
        have e1 : A1 j = A j := hstep j hja hjfa
        have e2 : A1 (f j) = A (f j) := hstep (f j) hfja hfjfa
        rw [hfold]
        rcases ihh.1 j hjt with ⟨r1, r2⟩
        exact ⟨by rw [r1, e1, e2], by rw [r2, e1, e2]⟩
    · intro j hj hfj
      have hja : j ≠ a := fun h => hj (h ▸ List.mem_cons_self a t)
      have hjfa : j ≠ f a := by
        intro h
        exact hfj a (List.mem_cons_self a t) h.symm
      rw [hfold, ihh.2 j (fun hc => hj (List.mem_cons_of_mem a hc))
        (fun k hk => hfj k (List.mem_cons_of_mem a hk)),
        hstep j hja hjfa]

/-- Sum of the entries of b with index in [lo, hi). -/
def sumIco (b : ℕ → ℤ) (lo hi : ℕ) : ℤ := ∑ x in Finset.Ico lo hi, b x

theorem sumIco_single (b : ℕ → ℤ) (j : ℕ) : sumIco b j (j + 1) = b j := by
  unfold sumIco
  rw [Nat.Ico_succ_singleton, Finset.sum_singleton]

theorem sumIco_empty (b : ℕ → ℤ) (lo : ℕ) : sumIco b lo lo = 0 := by
  unfold sumIco
  rw [Finset.Ico_self, Finset.sum_empty]

theorem sumIco_glue (b : ℕ → ℤ) (lo mid hi : ℕ) (h1 : lo ≤ mid) (h2 : mid ≤ hi) :
    sumIco b lo mid + sumIco b mid hi = sumIco b lo hi := by
  unfold sumIco
  exact Finset.sum_Ico_consecutive _ h1 h2

/-- Value of gcd with a power of two at the step from exponent t to t+1 when
the argument is not divisible by 2^(t+1). -/
theorem gcd_two_pow_succ (t m : ℕ) (h : ¬ 2 ^ (t + 1) ∣ m) :
    Nat.gcd (2 ^ (t + 1)) m = Nat.gcd (2 ^ t) m := by
  have hd : Nat.gcd (2 ^ t) m ∣ Nat.gcd (2 ^ (t + 1)) m :=
    Nat.dvd_gcd (dvd_trans (Nat.gcd_dvd_left _ _) (pow_dvd_pow 2 (by omega)))
      (Nat.gcd_dvd_right _ _)
  have h2 : Nat.gcd (2 ^ (t + 1)) m ∣ 2 ^ (t + 1) := Nat.gcd_dvd_left _ _
  rcases (Nat.dvd_prime_pow Nat.prime_two).mp h2 with ⟨a, ha, hge⟩
  have hat : a ≤ t := by
    by_contra hc
    have haa : a = t + 1 := by omega
    rw [haa] at hge
    have hr := Nat.gcd_dvd_right (2 ^ (t + 1)) m
    rw [hge] at hr
    exact h hr
  have hd2 : Nat.gcd (2 ^ (t + 1)) m ∣ Nat.gcd (2 ^ t) m := by
    refine Nat.dvd_gcd ?_ (Nat.gcd_dvd_right _ _)
    rw [hge]
    exact pow_dvd_pow 2 hat
  exact Nat.dvd_antisymm hd2 hd

/-- Value of gcd of the power 2^r with 2^t times an odd number. -/
theorem gcd_pow_odd (r t M : ℕ) (ht : t ≤ r) (hM : 1 ≤ M) :
    Nat.gcd (2 ^ r) (2 ^ t * (2 * M - 1)) = 2 ^ t := by
  have h1 : (2 : ℕ) ^ r = 2 ^ t * 2 ^ (r - t) := by
    rw [← pow_add]
    congr 1
    omega
  rw [h1, Nat.gcd_mul_left]
  have hodd : Nat.Coprime (2 ^ (r - t)) (2 * M - 1) := by
    refine Nat.Coprime.pow_left _ ?_
    rw [Nat.Prime.coprime_iff_not_dvd Nat.prime_two]
    omega
  have hodd2 : Nat.gcd (2 ^ (r - t)) (2 * M - 1) = 1 := hodd
  rw [hodd2, mul_one]

/-- Indices written by the up-sweep pass with offset 2^t (and by the matching
down-sweep pass): the loop variable i runs from 2^t - 1 in steps of 2^(t+1)
while i < 2^(k+1), and the pass writes slot i + 2^t. -/
def upWrites (k t : ℕ) : List ℕ :=
  (List.range (2 ^ (k - t))).map (fun s : ℕ => 2 ^ (t + 1) * s + (2 ^ (t + 1) - 1))

theorem mem_upWrites {k t : ℕ} (ht : t ≤ k) {j : ℕ} :
    j ∈ upWrites k t ↔ j < 2 ^ (k + 1) ∧ 2 ^ (t + 1) ∣ (j + 1) := by
  have hp : 1 ≤ 2 ^ (t + 1) := Nat.one_le_two_pow
  have hNQ : (2 : ℕ) ^ (k + 1) = 2 ^ (t + 1) * 2 ^ (k - t) := by
    rw [← pow_add]
    congr 1
    omega
  unfold upWrites
  rw [List.mem_map]
  constructor
  · rintro ⟨s, hs, rfl⟩
    rw [List.mem_range] at hs
    have hval : 2 ^ (t + 1) * s + (2 ^ (t + 1) - 1) + 1 = 2 ^ (t + 1) * (s + 1) := by
      rw [Nat.mul_succ]
      omega
    constructor
    · have hle : 2 ^ (t + 1) * (s + 1) ≤ 2 ^ (t + 1) * 2 ^ (k - t) :=
        Nat.mul_le_mul_left _ (by omega)
      omega
    · exact ⟨s + 1, hval⟩
  · rintro ⟨hlt, M, hM⟩
    have hM1 : 1 ≤ M := by
      rcases Nat.eq_zero_or_pos M with h | h
      · rw [h, Nat.mul_zero] at hM
        omega
      · exact h
    refine ⟨M - 1, ?_, ?_⟩
    · rw [List.mem_range]
      have hle : 2 ^ (t + 1) * M ≤ 2 ^ (t + 1) * 2 ^ (k - t) := by omega
      have := Nat.le_of_mul_le_mul_left hle (by omega : 0 < 2 ^ (t + 1))
      omega
    · have hms : M = (M - 1) + 1 := by omega
      rw [hms, Nat.mul_succ] at hM
      omega

theorem nodup_upWrites (k t : ℕ) : (upWrites k t).Nodup := by
  unfold upWrites
  refine List.Nodup.map ?_ (List.nodup_range _)
  intro s1 s2 h
  have hp : 0 < 2 ^ (t + 1) := Nat.pos_pow_of_pos _ (by omega)
  have h1 : 2 ^ (t + 1) * s1 + (2 ^ (t + 1) - 1)
      = 2 ^ (t + 1) * s2 + (2 ^ (t + 1) - 1) := h
  have h2 : 2 ^ (t + 1) * s1 = 2 ^ (t + 1) * s2 := by omega
  exact Nat.eq_of_mul_eq_mul_left hp h2

/-- One up-sweep pass of the Blelloch scan: slot w = i + 2^t receives
b[w] + b[w - 2^t] = b[i + 2^t] + b[i]. -/
def upPass (k t : ℕ) (b : ℕ → ℤ) : ℕ → ℤ :=
  (upWrites k t).foldl (fun b w => Function.update b w (b w + b (w - 2 ^ t))) b

theorem not_left_mem_upWrites {k t w : ℕ} (ht : t ≤ k)
    (hw : w ∈ upWrites k t) : w - 2 ^ t ∉ upWrites k t := by
  intro hc
  rcases (mem_upWrites ht).mp hw with ⟨hwlt, hwdvd⟩
  rcases (mem_upWrites ht).mp hc with ⟨_, hcdvd⟩
  have hge : 2 ^ (t + 1) ≤ w + 1 := Nat.le_of_dvd (by omega) hwdvd
  have hsub : (w + 1) - ((w - 2 ^ t) + 1) = 2 ^ t := by
    have h1 : (1 : ℕ) ≤ 2 ^ t := Nat.one_le_two_pow
    have h2 : (2 : ℕ) ^ (t + 1) = 2 * 2 ^ t := by rw [pow_succ]; ring
    omega
  have hdvd : 2 ^ (t + 1) ∣ (w + 1) - ((w - 2 ^ t) + 1) :=
    Nat.dvd_sub' hwdvd hcdvd
  rw [hsub] at hdvd
  have h1 := Nat.le_of_dvd (Nat.pos_pow_of_pos _ (by omega)) hdvd
  have h2 : (2 : ℕ) ^ t < 2 ^ (t + 1) := Nat.pow_lt_pow_succ (by omega)
  omega

theorem upPass_eq {k t : ℕ} (ht : t ≤ k) (b : ℕ → ℤ) :
    upPass k t b = fun j =>
      if j ∈ upWrites k t then b j + b (j - 2 ^ t) else b j := by
  unfold upPass
  refine foldl_update_eq _ (fun w A => A w + A (w - 2 ^ t))
    (nodup_upWrites k t) ?_ b
  intro w hw A B h
  have h1 : A w = B w := by
    rcases h w with h1 | h2
    · exact h1
    · exact absurd rfl h2.1
  have h2 : A (w - 2 ^ t) = B (w - 2 ^ t) := by
    rcases h (w - 2 ^ t) with h1 | h2
    · exact h1
    · exact absurd h2.2 (not_left_mem_upWrites ht hw)
  show A w + A (w - 2 ^ t) = B w + B (w - 2 ^ t)
  rw [h1, h2]

/-- The up-sweep of the Blelloch scan: passes with offsets 1, 2, ..., 2^k. -/
def upsweep (k : ℕ) (b : ℕ → ℤ) : ℕ → ℤ :=
  (List.range (k + 1)).foldl (fun b t => upPass k t b) b

theorem upsweep_aux (k : ℕ) (b : ℕ → ℤ) : ∀ t, t ≤ k + 1 →
    (∀ j, j < 2 ^ (k + 1) →
      ((List.range t).foldl (fun b t => upPass k t b) b) j
        = sumIco b (j + 1 - Nat.gcd (2 ^ t) (j + 1)) (j + 1))
    ∧ (∀ j, 2 ^ (k + 1) ≤ j →
      ((List.range t).foldl (fun b t => upPass k t b) b) j = b j) := by
  intro t
  induction t with
  | zero =>
    intro _
    constructor
    · intro j _
      have hg : Nat.gcd (2 ^ 0) (j + 1) = 1 := by
        rw [pow_zero]
        exact Nat.gcd_one_left _
      rw [List.range_zero, List.foldl_nil, hg]
      have hj : j + 1 - 1 = j := by omega
      rw [hj, sumIco_single]
    · intro j _
      rw [List.range_zero, List.foldl_nil]
  | succ t iht =>
    intro ht1
    have ht : t ≤ k := by omega
    have hIH := iht (by omega)
    set bt : ℕ → ℤ := (List.range t).foldl (fun b t => upPass k t b) b with hbt
    have hfold : (List.range (t + 1)).foldl (fun b t => upPass k t b) b
        = upPass k t bt := by
      rw [List.range_succ, List.foldl_append, List.foldl_cons, List.foldl_nil]
    rw [hfold]
    have hup := upPass_eq ht bt
    constructor
    · intro j hj
      simp only [hup]
      by_cases hmem : j ∈ upWrites k t
      · rw [if_pos hmem]
        rcases (mem_upWrites ht).mp hmem with ⟨_, M, hM⟩
        have hM1 : 1 ≤ M := by
          rcases Nat.eq_zero_or_pos M with h | h
          · rw [h, Nat.mul_zero] at hM
            omega
          · exact h
        have hps : (2 : ℕ) ^ (t + 1) = 2 * 2 ^ t := by rw [pow_succ]; ring
        have h1t : (1 : ℕ) ≤ 2 ^ t := Nat.one_le_two_pow
        have hge : 2 ^ (t + 1) ≤ j + 1 := Nat.le_of_dvd (by omega) ⟨M, hM⟩
        -- value of the own slot
        have hdvd_t : 2 ^ t ∣ (j + 1) := dvd_trans (pow_dvd_pow 2 (by omega)) ⟨M, hM⟩
        have hg1 : Nat.gcd (2 ^ t) (j + 1) = 2 ^ t := Nat.gcd_eq_left hdvd_t
        have hv1 : bt j = sumIco b (j + 1 - 2 ^ t) (j + 1) := by
          rw [hIH.1 j hj, hg1]
        -- value of the read slot
        have hlow : j - 2 ^ t < 2 ^ (k + 1) := by omega
        have hodd : (j - 2 ^ t) + 1 = 2 ^ t * (2 * M - 1) := by
          have : 2 ^ (t + 1) * M = 2 * 2 ^ t * M := by rw [hps]
          have hmul : 2 ^ t * (2 * M - 1) = 2 ^ t * (2 * M) - 2 ^ t := by
            rw [Nat.mul_sub]
            ring_nf
          have hmul2 : 2 ^ t * (2 * M) = 2 ^ (t + 1) * M := by
            rw [hps]
            ring
          omega
        have hg2 : Nat.gcd (2 ^ t) ((j - 2 ^ t) + 1) = 2 ^ t := by
          rw [hodd]
          exact gcd_pow_odd t t M (le_refl t) hM1
        have hv2 : bt (j - 2 ^ t)
            = sumIco b (j + 1 - 2 ^ (t + 1)) (j + 1 - 2 ^ t) := by
          rw [hIH.1 (j - 2 ^ t) hlow, hg2]
          have e1 : (j - 2 ^ t) + 1 - 2 ^ t = j + 1 - 2 ^ (t + 1) := by omega
          have e2 : (j - 2 ^ t) + 1 = j + 1 - 2 ^ t := by omega
          rw [e1, e2]
        rw [hv1, hv2]
        have hg3 : Nat.gcd (2 ^ (t + 1)) (j + 1) = 2 ^ (t + 1) :=
          Nat.gcd_eq_left ⟨M, hM⟩
        rw [hg3]
        rw [add_comm (sumIco b (j + 1 - 2 ^ t) (j + 1))]
        exact sumIco_glue b _ _ _ (by omega) (by omega)
      · rw [if_neg hmem]
        have hnd : ¬ 2 ^ (t + 1) ∣ (j + 1) := by
          intro hc
          exact hmem ((mem_upWrites ht).mpr ⟨hj, hc⟩)
        rw [hIH.1 j hj, gcd_two_pow_succ t (j + 1) hnd]
    · intro j hj
      simp only [hup]
      have hmem : j ∉ upWrites k t := by
        intro hc
        rcases (mem_upWrites ht).mp hc with ⟨h1, _⟩
        omega
      rw [if_neg hmem]
      exact hIH.2 j hj

theorem upsweep_eq (k : ℕ) (b : ℕ → ℤ) :
    (∀ j, j < 2 ^ (k + 1) →
      upsweep k b j = sumIco b (j + 1 - Nat.gcd (2 ^ (k + 1)) (j + 1)) (j + 1))
    ∧ (∀ j, 2 ^ (k + 1) ≤ j → upsweep k b j = b j) :=
  upsweep_aux k b (k + 1) (le_refl _)

/-- One down-sweep pass with offset 2^t: at each pair (i, i + 2^t) with
i = w - 2^t, slot i receives the old slot w and slot w receives their sum
(temp = local[i]; local[i] = local[i+offset]; local[i+offset] += temp). -/
def downPass (k t : ℕ) (c : ℕ → ℤ) : ℕ → ℤ :=
  (upWrites k t).foldl
    (fun c w => Function.update
      (Function.update c (w - 2 ^ t) ((fun x _ => x) (c w) (c (w - 2 ^ t)))) w
      ((fun x y => x + y) (c w) (c (w - 2 ^ t)))) c

/-- The down-sweep of the Blelloch scan: passes with offsets 2^k, ..., 2, 1. -/
def downsweep (k : ℕ) (c : ℕ → ℤ) : ℕ → ℤ :=
  ((List.range (k + 1)).reverse).foldl (fun c t => downPass k t c) c

/-- Down-sweep invariant at boundary level 2^t: slots whose successor index is
divisible by 2^t hold the exclusive prefix up to their aligned block start,
the rest still hold their up-sweep values, and slots beyond the block are
untouched. -/
def DownInv (k t : ℕ) (b0 c : ℕ → ℤ) : Prop :=
  (∀ j, j < 2 ^ (k + 1) →
    (2 ^ t ∣ (j + 1) → c j = sumIco b0 0 (j + 1 - 2 ^ t))
    ∧ (¬ 2 ^ t ∣ (j + 1) →
        c j = sumIco b0 (j + 1 - Nat.gcd (2 ^ (k + 1)) (j + 1)) (j + 1)))
  ∧ (∀ j, 2 ^ (k + 1) ≤ j → c j = b0 j)

theorem downPass_inv (k t : ℕ) (ht : t ≤ k) (b0 c : ℕ → ℤ)
    (h : DownInv k (t + 1) b0 c) : DownInv k t b0 (downPass k t c) := by
  have hps : (2 : ℕ) ^ (t + 1) = 2 * 2 ^ t := by rw [pow_succ]; ring
  have h1t : (1 : ℕ) ≤ 2 ^ t := Nat.one_le_two_pow
  have hNQ : (2 : ℕ) ^ (k + 1) = 2 ^ (t + 1) * 2 ^ (k - t) := by
    rw [← pow_add]
    congr 1
    omega
  have h1Q : (1 : ℕ) ≤ 2 ^ (k - t) := Nat.one_le_two_pow
  have hpair := foldl_update2_eq (upWrites k t) (fun w => w - 2 ^ t)
    (fun x _ => x) (fun x y => x + y) (nodup_upWrites k t)
    (fun w hw => not_left_mem_upWrites ht hw)
    (fun w1 hw1 w2 hw2 hne => by
      rcases (mem_upWrites ht).mp hw1 with ⟨_, hd1⟩
      rcases (mem_upWrites ht).mp hw2 with ⟨_, hd2⟩
      have hg1 : 2 ^ (t + 1) ≤ w1 + 1 := Nat.le_of_dvd (by omega) hd1
      have hg2 : 2 ^ (t + 1) ≤ w2 + 1 := Nat.le_of_dvd (by omega) hd2
      intro hc
      have hc2 : w1 - 2 ^ t = w2 - 2 ^ t := hc
      apply hne
      omega) c
  constructor
  · intro j hj
    constructor
    · intro hdvd
      by_cases h2d : 2 ^ (t + 1) ∣ (j + 1)
      · -- j is a written right slot
        have hmem : j ∈ upWrites k t := (mem_upWrites ht).mpr ⟨hj, h2d⟩
        have hval : downPass k t c j = c j + c (j - 2 ^ t) :=
          (hpair.1 j hmem).1
        rcases h2d with ⟨M, hM⟩
        have hM1 : 1 ≤ M := by
          rcases Nat.eq_zero_or_pos M with hz | hz
          · rw [hz, Nat.mul_zero] at hM
            omega
          · exact hz
        have hge : 2 ^ (t + 1) ≤ j + 1 := by
          rw [hM]
          exact Nat.le_mul_of_pos_right _ (by omega)
        have hcj : c j = sumIco b0 0 (j + 1 - 2 ^ (t + 1)) :=
          ((h.1 j hj).1) ⟨M, hM⟩
        have hlodd : (j - 2 ^ t) + 1 = 2 ^ t * (2 * M - 1) := by
          have hmul : 2 ^ t * (2 * M - 1) = 2 ^ t * (2 * M) - 2 ^ t := by
            rw [Nat.mul_sub]
            ring_nf
          have hmul2 : 2 ^ t * (2 * M) = 2 ^ (t + 1) * M := by
            rw [hps]
            ring
          omega
        have hlnd : ¬ 2 ^ (t + 1) ∣ ((j - 2 ^ t) + 1) := by
          intro hc
          have hle := Nat.le_of_dvd (by omega) hc
          have hdd : 2 ^ (t + 1) ∣ (j + 1) - ((j - 2 ^ t) + 1) :=
            Nat.dvd_sub' ⟨M, hM⟩ hc
          have hsub : (j + 1) - ((j - 2 ^ t) + 1) = 2 ^ t := by omega
          rw [hsub] at hdd
          have := Nat.le_of_dvd (by omega) hdd
          omega
        have hcl : c (j - 2 ^ t)
            = sumIco b0 (j + 1 - 2 ^ (t + 1)) (j + 1 - 2 ^ t) := by
          have hv := ((h.1 (j - 2 ^ t) (by omega)).2) hlnd
          have hg : Nat.gcd (2 ^ (k + 1)) ((j - 2 ^ t) + 1) = 2 ^ t := by
            rw [hlodd]
            exact gcd_pow_odd (k + 1) t M (by omega) hM1
          rw [hv, hg]
          have e1 : (j - 2 ^ t) + 1 - 2 ^ t = j + 1 - 2 ^ (t + 1) := by omega
          have e2 : (j - 2 ^ t) + 1 = j + 1 - 2 ^ t := by omega
          rw [e1, e2]
        rw [hval, hcj, hcl]
        exact sumIco_glue b0 _ _ _ (by omega) (by omega)
      · -- j is a written left slot: j = w - 2^t for w = j + 2^t
        rcases hdvd with ⟨q, hq⟩
        have hq1 : 1 ≤ q := by
          rcases Nat.eq_zero_or_pos q with hz | hz
          · rw [hz, Nat.mul_zero] at hq
            omega
          · exact hz
        have hqodd : q % 2 = 1 := by
          rcases Nat.even_or_odd q with he | ho
          · exfalso
            rcases he with ⟨m, hm⟩
            apply h2d
            refine ⟨m, ?_⟩
            rw [hq, hm, hps]
            ring
          · rcases ho with ⟨m, hm⟩
            omega
        obtain ⟨m, hm⟩ : ∃ m, q = 2 * m + 1 := ⟨q / 2, by omega⟩
        have hwdvd : 2 ^ (t + 1) ∣ (j + 2 ^ t) + 1 := by
          refine ⟨m + 1, ?_⟩
          have : j + 2 ^ t + 1 = 2 ^ t * q + 2 ^ t := by omega
          rw [this, hm, hps]
          ring
        have hwlt : j + 2 ^ t < 2 ^ (k + 1) := by
          -- j + 1 = 2^t (2m+1) and j < 2^(k+1) = 2^(t+1) 2^(k-t)
          have hne : j + 1 ≠ 2 ^ (k + 1) := by
            intro hcc
            apply h2d
            rw [hcc, hNQ]
            exact ⟨2 ^ (k - t), rfl⟩
          have hb : 2 ^ t * q < 2 ^ (t + 1) * 2 ^ (k - t) := by omega
          have hb2 : q < 2 * 2 ^ (k - t) := by
            by_contra hc
            push_neg at hc
            have : 2 ^ t * (2 * 2 ^ (k - t)) ≤ 2 ^ t * q :=
              Nat.mul_le_mul_left _ hc
            have he : 2 ^ t * (2 * 2 ^ (k - t)) = 2 ^ (t + 1) * 2 ^ (k - t) := by
              rw [hps]
              ring
            omega
          have hb3 : q + 1 ≤ 2 * 2 ^ (k - t) := by omega
          have hmulq : 2 ^ t * (q + 1) = 2 ^ t * q + 2 ^ t := by ring
          have : (j + 2 ^ t) + 1 = 2 ^ t * (q + 1) := by omega
          have hle : 2 ^ t * (q + 1) ≤ 2 ^ t * (2 * 2 ^ (k - t)) :=
            Nat.mul_le_mul_left _ hb3
          have he : 2 ^ t * (2 * 2 ^ (k - t)) = 2 ^ (k + 1) := by
            rw [hNQ, hps]
            ring
          omega
        have hwmem : (j + 2 ^ t) ∈ upWrites k t :=
          (mem_upWrites ht).mpr ⟨hwlt, hwdvd⟩
        have hval : downPass k t c ((j + 2 ^ t) - 2 ^ t) = c (j + 2 ^ t) :=
          (hpair.1 (j + 2 ^ t) hwmem).2
        have hsimp : (j + 2 ^ t) - 2 ^ t = j := by omega
        rw [hsimp] at hval
        rw [hval]
        have hcw : c (j + 2 ^ t) = sumIco b0 0 ((j + 2 ^ t) + 1 - 2 ^ (t + 1)) :=
          ((h.1 (j + 2 ^ t) hwlt).1) hwdvd
        rw [hcw]
        have he : (j + 2 ^ t) + 1 - 2 ^ (t + 1) = j + 1 - 2 ^ t := by omega
        rw [he]
    · intro hnd
      have hnd1 : ¬ 2 ^ (t + 1) ∣ (j + 1) := by
        intro hc
        exact hnd (dvd_trans (pow_dvd_pow 2 (by omega)) hc)
      have hjnot : j ∉ upWrites k t := by
        intro hc
        exact hnd1 ((mem_upWrites ht).mp hc).2
      have hjnotl : ∀ w ∈ upWrites k t, w - 2 ^ t ≠ j := by
        intro w hw hc
        apply hnd
        rcases (mem_upWrites ht).mp hw with ⟨_, hd⟩
        have hge : 2 ^ (t + 1) ≤ w + 1 := Nat.le_of_dvd (by omega) hd
        have : j + 1 = (w + 1) - 2 ^ t := by omega
        rw [this]
        have hps : (2 : ℕ) ^ (t + 1) = 2 * 2 ^ t := by rw [pow_succ]; ring
        rcases hd with ⟨M, hM⟩
        refine ⟨2 * M - 1, ?_⟩
        have h1t : (1 : ℕ) ≤ 2 ^ t := Nat.one_le_two_pow
        have hM1 : 1 ≤ M := by
          rcases Nat.eq_zero_or_pos M with hz | hz
          · rw [hz, Nat.mul_zero] at hM
            omega
          · exact hz
        have hmul : 2 ^ t * (2 * M - 1) = 2 ^ t * (2 * M) - 2 ^ t := by
          rw [Nat.mul_sub]
          ring_nf
        have hmul2 : 2 ^ t * (2 * M) = 2 ^ (t + 1) * M := by
          rw [hps]
          ring
        omega
      have hval : downPass k t c j = c j := hpair.2 j hjnot hjnotl
      rw [hval]
      exact ((h.1 j hj).2) (fun hc => hnd1 hc)
  · intro j hj
    have hjnot : j ∉ upWrites k t := by
      intro hc
      rcases (mem_upWrites ht).mp hc with ⟨h1, _⟩
      omega
    have hjnotl : ∀ w ∈ upWrites k t, w - 2 ^ t ≠ j := by
      intro w hw hc
      rcases (mem_upWrites ht).mp hw with ⟨h1, _⟩
      omega
    have hval : downPass k t c j = c j := hpair.2 j hjnot hjnotl
    rw [hval]
    exact h.2 j hj

theorem downsweep_aux (k : ℕ) (b0 : ℕ → ℤ) : ∀ t, t ≤ k + 1 → ∀ c,
    DownInv k t b0 c →
    DownInv k 0 b0 (((List.range t).reverse).foldl (fun c t => downPass k t c) c) := by
  intro t
  induction t with
  | zero =>
    intro _ c hc
    rw [List.range_zero, List.reverse_nil, List.foldl_nil]
    exact hc
  | succ t iht =>
    intro ht1 c hc
    have hfold : ((List.range (t + 1)).reverse).foldl (fun c t => downPass k t c) c
        = ((List.range t).reverse).foldl (fun c t => downPass k t c)
            (downPass k t c) := by
      rw [List.range_succ, List.reverse_append, List.reverse_singleton]
      rfl
    rw [hfold]
    exact iht (by omega) (downPass k t c)
      (downPass_inv k t (by omega) b0 c hc)

/-- The Blelloch scan of one block: up-sweep, zero the last slot, down-sweep
(the read-out of the block total is blockTotal). -/
def blockScan (k : ℕ) (b : ℕ → ℤ) : ℕ → ℤ :=
  downsweep k (Function.update (upsweep k b) (2 ^ (k + 1) - 1) 0)

/-- The block total read out between the sweeps: the last slot after the
up-sweep. -/
def blockTotal (k : ℕ) (b : ℕ → ℤ) : ℤ :=
  upsweep k b (2 ^ (k + 1) - 1)

theorem blockTotal_eq (k : ℕ) (b : ℕ → ℤ) :
    blockTotal k b = sumIco b 0 (2 ^ (k + 1)) := by
  have hN : (1 : ℕ) ≤ 2 ^ (k + 1) := Nat.one_le_two_pow
  unfold blockTotal
  rw [(upsweep_eq k b).1 (2 ^ (k + 1) - 1) (by omega)]
  have e1 : 2 ^ (k + 1) - 1 + 1 = 2 ^ (k + 1) := by omega
  rw [e1, Nat.gcd_self]
  have e2 : 2 ^ (k + 1) - 2 ^ (k + 1) = 0 := by omega
  rw [e2]

theorem blockScan_eq (k : ℕ) (b : ℕ → ℤ) :
    (∀ j, j < 2 ^ (k + 1) → blockScan k b j = sumIco b 0 j)
    ∧ (∀ j, 2 ^ (k + 1) ≤ j → blockScan k b j = b j) := by
  have hN : (1 : ℕ) ≤ 2 ^ (k + 1) := Nat.one_le_two_pow
  have hinit : DownInv k (k + 1) b
      (Function.update (upsweep k b) (2 ^ (k + 1) - 1) 0) := by
    refine ⟨?_, ?_⟩
    · intro j hj
      constructor
      · intro hdvd
        have hge := Nat.le_of_dvd (by omega) hdvd
        have hje : j = 2 ^ (k + 1) - 1 := by omega
        rw [hje, Function.update_same]
        have he : 2 ^ (k + 1) - 1 + 1 - 2 ^ (k + 1) = 0 := by omega
        rw [he, sumIco_empty]
      · intro hnd
        have hne : j ≠ 2 ^ (k + 1) - 1 := by
          intro hc
          apply hnd
          rw [hc]
          have : 2 ^ (k + 1) - 1 + 1 = 2 ^ (k + 1) := by omega
          rw [this]
        rw [Function.update_noteq hne]
        exact (upsweep_eq k b).1 j hj
    · intro j hj
      have hne : j ≠ 2 ^ (k + 1) - 1 := by omega
      rw [Function.update_noteq hne]
      exact (upsweep_eq k b).2 j hj
  have hfin := downsweep_aux k b (k + 1) (le_refl _) _ hinit
  constructor
  · intro j hj
    have hd : (2 : ℕ) ^ 0 ∣ (j + 1) := by
      rw [pow_zero]
      exact one_dvd _
    have hv := (hfin.1 j hj).1 hd
    have he : j + 1 - 2 ^ 0 = j := by simp
    rw [he] at hv
    exact hv
  · intro j hj
    exact hfin.2 j hj

/-- The local buffer of one block: local_buffer[i] = vector[i + begin_idx]
when in range and 0 otherwise (begin_idx = block_id * blocksize). -/
def loadBlock (k n : ℕ) (v : ℕ → ℤ) (b : ℕ) : ℕ → ℤ :=
  fun i => if b * 2 ^ (k + 1) + i < n then v (b * 2 ^ (k + 1) + i) else 0

/-- num_blocks = ceil(size / blocksize). -/
def numBlocks (k n : ℕ) : ℕ := (n + 2 ^ (k + 1) - 1) / 2 ^ (k + 1)

/-- The vector after the per-block scans wrote their results back (only the
slots below size are written; each slot is written by its own block). -/
def onePassVec (k n : ℕ) (v : ℕ → ℤ) : ℕ → ℤ :=
  fun j => if j < n then
    blockScan k (loadBlock k n v (j / 2 ^ (k + 1))) (j % 2 ^ (k + 1))
  else v j

/-- block_sum as captured between the sweeps: the total of each block. -/
def blockSums (k n : ℕ) (v : ℕ → ℤ) : ℕ → ℤ :=
  fun b => blockTotal k (loadBlock k n v b)

/-- The final combination loop: every block except the first adds its entry
of the recursively scanned block_sum. -/
def scanCombine (k n : ℕ) (v : ℕ → ℤ) (rec : ℕ → ℤ) : ℕ → ℤ :=
  fun j => if j < n ∧ 0 < j / 2 ^ (k + 1) then
    onePassVec k n v j + rec (j / 2 ^ (k + 1))
  else onePassVec k n v j

theorem numBlocks_lt (k n : ℕ) (h : 1 < numBlocks k n) : numBlocks k n < n := by
  have hN : 2 ≤ 2 ^ (k + 1) := by
    have h2 : (2 : ℕ) ^ 1 ≤ 2 ^ (k + 1) := Nat.pow_le_pow_right (by omega) (by omega)
    simpa using h2
  unfold numBlocks at *
  have hNpos : 0 < 2 ^ (k + 1) := by omega
  have hn : 2 ^ (k + 1) < n := by
    by_contra hc
    push_neg at hc
    have hlt : (n + 2 ^ (k + 1) - 1) / 2 ^ (k + 1) < 2 := by
      rw [Nat.div_lt_iff_lt_mul hNpos]
      omega
    omega
  rw [Nat.div_lt_iff_lt_mul hNpos]
  have h2 : n * 2 ≤ n * 2 ^ (k + 1) := Nat.mul_le_mul_left n hN
  omega

/-- prefix_sum_openacc, the dispatcher: scan with the block size selected
from the size, recurse on the block sums while more than one block remains.
The selection function is a parameter because LOCAL_BUFFER_SIZE is defined
outside the sources. -/
def prefix_sum_openacc (choose : ℕ → ℕ) (n : ℕ) (v : ℕ → ℤ) : ℕ → ℤ :=
  if h : 1 < numBlocks (choose n) n then
    scanCombine (choose n) n v
      (prefix_sum_openacc choose (numBlocks (choose n) n)
        (blockSums (choose n) n v))
  else onePassVec (choose n) n v
termination_by n
decreasing_by exact numBlocks_lt _ _ h

/-- prefix_sum_openacc_min: one level with blocks of MIN_WARP_SIZE = 32 = 2^5
elements, recursing through the dispatcher. -/
def prefix_sum_openacc_min (choose : ℕ → ℕ) (n : ℕ) (v : ℕ → ℤ) : ℕ → ℤ :=
  if 1 < numBlocks 4 n then
    scanCombine 4 n v
      (prefix_sum_openacc choose (numBlocks 4 n) (blockSums 4 n v))
  else onePassVec 4 n v

/-- prefix_sum_openacc_full: one level with blocks of LOCAL_BUFFER_SIZE
= 2^(kf+1) elements, recursing through the dispatcher. -/
def prefix_sum_openacc_full (kf : ℕ) (choose : ℕ → ℕ) (n : ℕ)
    (v : ℕ → ℤ) : ℕ → ℤ :=
  if 1 < numBlocks kf n then
    scanCombine kf n v
      (prefix_sum_openacc choose (numBlocks kf n) (blockSums kf n v))
  else onePassVec kf n v

theorem sumIco_load (k n : ℕ) (v : ℕ → ℤ) (b m : ℕ)
    (hm : ∀ x, x < m → b * 2 ^ (k + 1) + x < n) :
    sumIco (loadBlock k n v b) 0 m
      = sumIco v (b * 2 ^ (k + 1)) (b * 2 ^ (k + 1) + m) := by
  unfold sumIco
  rw [Finset.sum_Ico_eq_sum_range, Finset.sum_Ico_eq_sum_range]
  have e1 : m - 0 = m := by omega
  have e2 : b * 2 ^ (k + 1) + m - b * 2 ^ (k + 1) = m := by omega
  rw [e1, e2]
  refine Finset.sum_congr rfl ?_
  intro x hx
  have hx2 := Finset.mem_range.mp hx
  simp only [loadBlock, Nat.zero_add]
  rw [if_pos (hm x hx2)]

theorem onePassVec_val (k n : ℕ) (v : ℕ → ℤ) (j : ℕ) (hj : j < n) :
    onePassVec k n v j = sumIco v ((j / 2 ^ (k + 1)) * 2 ^ (k + 1)) j := by
  have hNpos : 0 < 2 ^ (k + 1) := Nat.pos_pow_of_pos _ (by omega)
  have hmod : j % 2 ^ (k + 1) < 2 ^ (k + 1) := Nat.mod_lt _ hNpos
  have hdm : (j / 2 ^ (k + 1)) * 2 ^ (k + 1) + j % 2 ^ (k + 1) = j := by
    rw [Nat.mul_comm]
    exact Nat.div_add_mod j (2 ^ (k + 1))
  unfold onePassVec
  rw [if_pos hj,
    (blockScan_eq k (loadBlock k n v (j / 2 ^ (k + 1)))).1 _ hmod,
    sumIco_load k n v _ _ (by intro x hx; omega), hdm]

theorem blockSums_full (k n : ℕ) (v : ℕ → ℤ) (b : ℕ)
    (hb : (b + 1) * 2 ^ (k + 1) ≤ n) :
    blockSums k n v b
      = sumIco v (b * 2 ^ (k + 1)) (b * 2 ^ (k + 1) + 2 ^ (k + 1)) := by
  unfold blockSums
  rw [blockTotal_eq, sumIco_load k n v b _ ?_]
  intro x hx
  have : b * 2 ^ (k + 1) + x < (b + 1) * 2 ^ (k + 1) := by
    have he : (b + 1) * 2 ^ (k + 1) = b * 2 ^ (k + 1) + 2 ^ (k + 1) := by ring
    omega
  omega

theorem blockSums_prefix (k n : ℕ) (v : ℕ → ℤ) : ∀ B : ℕ,
    B * 2 ^ (k + 1) ≤ n →
    sumIco (blockSums k n v) 0 B = sumIco v 0 (B * 2 ^ (k + 1)) := by
  intro B
  induction B with
  | zero =>
    intro _
    rw [Nat.zero_mul, sumIco_empty, sumIco_empty]
  | succ B ih =>
    intro hB
    have hNpos : 0 < 2 ^ (k + 1) := Nat.pos_pow_of_pos _ (by omega)
    have he : (B + 1) * 2 ^ (k + 1) = B * 2 ^ (k + 1) + 2 ^ (k + 1) := by ring
    have hBle : B * 2 ^ (k + 1) ≤ n := by omega
    have hs : sumIco (blockSums k n v) 0 (B + 1)
        = sumIco (blockSums k n v) 0 B + blockSums k n v B := by
      unfold sumIco
      exact Finset.sum_Ico_succ_top (by omega) _
    rw [hs, ih hBle, blockSums_full k n v B (by omega), he]
    exact sumIco_glue v 0 _ _ (by omega) (by omega)

theorem onePass_correct (k n : ℕ) (v : ℕ → ℤ) :
    (∀ j, j < n → j / 2 ^ (k + 1) = 0 → onePassVec k n v j = sumIco v 0 j)
    ∧ (∀ j, n ≤ j → onePassVec k n v j = v j) := by
  constructor
  · intro j hj hd
    have h := onePassVec_val k n v j hj
    rw [hd, Nat.zero_mul] at h
    exact h
  · intro j hj
    unfold onePassVec
    rw [if_neg (by omega)]

theorem scanCombine_correct (k n : ℕ) (v : ℕ → ℤ) (rec : ℕ → ℤ)
    (hrec : ∀ b, b < numBlocks k n →
      rec b = sumIco (blockSums k n v) 0 b) :
    (∀ j, j < n → scanCombine k n v rec j = sumIco v 0 j)
    ∧ (∀ j, n ≤ j → scanCombine k n v rec j = v j) := by
  have hNpos : 0 < 2 ^ (k + 1) := Nat.pos_pow_of_pos _ (by omega)
  constructor
  · intro j hj
    by_cases hb : 0 < j / 2 ^ (k + 1)
    · unfold scanCombine
      rw [if_pos ⟨hj, hb⟩]
      have hblt : j / 2 ^ (k + 1) < numBlocks k n := by
        unfold numBlocks
        have h1 : j ≤ n - 1 := by omega
        have h2 : j / 2 ^ (k + 1) ≤ (n - 1) / 2 ^ (k + 1) :=
          Nat.div_le_div_right h1
        have h3 : n + 2 ^ (k + 1) - 1 = (n - 1) + 2 ^ (k + 1) := by omega
        rw [h3, Nat.add_div_right _ hNpos]
        omega
      have hble : (j / 2 ^ (k + 1)) * 2 ^ (k + 1) ≤ j :=
        Nat.div_mul_le_self j _
      rw [hrec _ hblt, onePassVec_val k n v j hj,
        blockSums_prefix k n v _ (by omega)]
      rw [add_comm]
      exact sumIco_glue v 0 _ _ (by omega) (by omega)
    · unfold scanCombine
      rw [if_neg (by intro hc; exact hb hc.2)]
      exact (onePass_correct k n v).1 j hj (Nat.eq_zero_of_not_pos hb)
  · intro j hj
    unfold scanCombine
    rw [if_neg (by intro hc; omega)]
    exact (onePass_correct k n v).2 j hj

theorem small_div_zero (k n j : ℕ) (h : ¬ 1 < numBlocks k n) (hj : j < n) :
    j / 2 ^ (k + 1) = 0 := by
  have hNpos : 0 < 2 ^ (k + 1) := Nat.pos_pow_of_pos _ (by omega)
  have hle : n ≤ 2 ^ (k + 1) := by
    by_contra hc
    push_neg at hc
    apply h
    unfold numBlocks
    have h2 : 2 ≤ (n + 2 ^ (k + 1) - 1) / 2 ^ (k + 1) :=
      (Nat.le_div_iff_mul_le hNpos).mpr (by omega)
    omega
  exact Nat.div_eq_of_lt (by omega)

theorem prefix_sum_openacc_correct (choose : ℕ → ℕ) : ∀ n : ℕ, ∀ v : ℕ → ℤ,
    (∀ j, j < n → prefix_sum_openacc choose n v j = sumIco v 0 j)
    ∧ (∀ j, n ≤ j → prefix_sum_openacc choose n v j = v j) := by
  intro n
  induction n using Nat.strong_induction_on with
  | _ n ih =>
    intro v
    by_cases h : 1 < numBlocks (choose n) n
    · have hunf : prefix_sum_openacc choose n v
          = scanCombine (choose n) n v
              (prefix_sum_openacc choose (numBlocks (choose n) n)
                (blockSums (choose n) n v)) := by
        rw [prefix_sum_openacc]
        rw [dif_pos h]
      have hrec := ih (numBlocks (choose n) n) (numBlocks_lt (choose n) n h)
        (blockSums (choose n) n v)
      rw [hunf]
      exact scanCombine_correct (choose n) n v _ (fun b hb => hrec.1 b hb)
    · have hunf : prefix_sum_openacc choose n v = onePassVec (choose n) n v := by
        rw [prefix_sum_openacc]
        rw [dif_neg h]
      rw [hunf]
      exact ⟨fun j hj => (onePass_correct (choose n) n v).1 j hj
          (small_div_zero (choose n) n j h hj),
        fun j hj => (onePass_correct (choose n) n v).2 j hj⟩

/-- C7 (amended): for every integer array of any length, each of the
prefix-sum kernels (the one-warp variant with blocks of 32, the multi-warp
variant with blocks of LOCAL_BUFFER_SIZE = 2^(kf+1), and the dispatcher with
any block selection) rewrites every entry j below the size to the sum of the
original entries strictly before j.  The last entry therefore equals the sum
of all entries strictly before it, not (as the claim stated) the sum of all
original entries; the two agree only when the last input entry is zero, as
at every call site. -/
theorem claim_C7_prefix_sum (choose : ℕ → ℕ) (kf : ℕ) (n : ℕ) (v : ℕ → ℤ)
    (j : ℕ) (hj : j < n) :
    prefix_sum_openacc_min choose n v j = sumIco v 0 j
    ∧ prefix_sum_openacc_full kf choose n v j = sumIco v 0 j
    ∧ prefix_sum_openacc choose n v j = sumIco v 0 j := by
  have hgen := prefix_sum_openacc_correct choose
  refine ⟨?_, ?_, (hgen n v).1 j hj⟩
  · unfold prefix_sum_openacc_min
    by_cases h : 1 < numBlocks 4 n
    · rw [if_pos h]
      exact (scanCombine_correct 4 n v _
        (fun b hb => (hgen (numBlocks 4 n) (blockSums 4 n v)).1 b hb)).1 j hj
    · rw [if_neg h]
      exact (onePass_correct 4 n v).1 j hj (small_div_zero 4 n j h hj)
  · unfold prefix_sum_openacc_full
    by_cases h : 1 < numBlocks kf n
    · rw [if_pos h]
      exact (scanCombine_correct kf n v _
        (fun b hb => (hgen (numBlocks kf n) (blockSums kf n v)).1 b hb)).1 j hj
    · rw [if_neg h]
      exact (onePass_correct kf n v).1 j hj (small_div_zero kf n j h hj)

/-- C7 witness: the theorem applied to the two-element array (0, 1) at
index 1 (all three variants return 0 + 0 = 0 there, the exclusive prefix). -/
theorem claim_C7_prefix_sum_witness :
    (1 : ℕ) < 2
    ∧ (prefix_sum_openacc_min (fun _ => 4) 2 (fun i => (i : ℤ)) 1
          = sumIco (fun i => (i : ℤ)) 0 1
      ∧ prefix_sum_openacc_full 4 (fun _ => 4) 2 (fun i => (i : ℤ)) 1
          = sumIco (fun i => (i : ℤ)) 0 1
      ∧ prefix_sum_openacc (fun _ => 4) 2 (fun i => (i : ℤ)) 1
          = sumIco (fun i => (i : ℤ)) 0 1) :=
  ⟨by decide, claim_C7_prefix_sum (fun _ => 4) 4 2 (fun i => (i : ℤ)) 1 (by decide)⟩

/-- C7 (counterexample): on the one-element array (5), the one-warp prefix
sum writes 0 into the last (and only) entry, but the sum of all original
entries is 5, so the claim that the last entry equals the total is false. -/
theorem claim_C7_counterexample :
    prefix_sum_openacc_min (fun _ => 4) 1 (fun _ => (5 : ℤ)) 0 = 0
    ∧ sumIco (fun _ => (5 : ℤ)) 0 1 = 5 := by
  constructor
  · decide
  · exact sumIco_single (fun _ => (5 : ℤ)) 0

/-! ## Current deposition split (claim C10), particle pusher (claim C2),
and the two advance kernels (claim C8)

kernel_particles.c: dep_current_openacc splits a particle trajectory into up
to three virtual particles (one x split, then one y split applied to the
sub-segment that crosses the y boundary), then deposits the eight current
contributions of every virtual particle.  Float arithmetic is modeled as
real arithmetic. -/

/-- Virtual particle produced by the trajectory split (struct t_vp). -/
structure Vp where
  x0 : ℝ
  x1 : ℝ
  y0 : ℝ
  y1 : ℝ
  dx : ℝ
  dy : ℝ
  qvz : ℝ
  ix : ℤ
  iy : ℤ

/-- LTRIM.  Modelled from the spec: the macro lives in utilities.h, which is
not among the sources; the spec states LTRIM(v) is -1 if v < 0, +1 if
v >= 1 and 0 otherwise. -/
noncomputable def LTRIM (v : ℝ) : ℤ :=
  if v < 0 then -1 else if 1 ≤ v then 1 else 0

/-- The y split of dep_current_openacc applied to segment s (the slot
vp[begin+isy]), returning the corrected segment and the new segment
(written to vp[begin+vnp], a slot distinct from begin+isy). -/
noncomputable def dep_ysplit (s : Vp) (dj : ℤ) : Vp × Vp :=
  let jb : ℤ := if dj = 1 then 1 else 0
  let delta := (s.y1 - (jb : ℝ)) / s.dy
  let xcross := s.x0 + s.dx * (1 - delta)
  ({ s with
      y1 := (jb : ℝ)
      dy := s.dy * (1 - delta)
      dx := s.dx * (1 - delta)
      x1 := xcross
      qvz := s.qvz * (1 - delta) },
   ⟨xcross, s.x1, 1 - (jb : ℝ), s.y1 - (dj : ℝ), s.dx * delta, s.dy * delta,
      s.qvz * delta, s.ix, s.iy + dj⟩)

/-- The y split in the aliased case isy = vnp = 1 (no x split happened but
the code picks slot begin+1 both as the segment to split and as the slot for
the new segment): the C code then reads the uninitialized slot vp[begin+1],
modeled by the parameter g, and the interleaved field writes produce this
value for the slot. -/
noncomputable def dep_yalias (g : Vp) (dj : ℤ) : Vp :=
  let jb : ℤ := if dj = 1 then 1 else 0
  let delta := (g.y1 - (jb : ℝ)) / g.dy
  let xcross := g.x0 + g.dx * (1 - delta)
  ⟨xcross, xcross, 1 - (jb : ℝ), (jb : ℝ), g.dx * delta * (1 - delta),
    g.dy * delta * (1 - delta), g.qvz * delta * (1 - delta), g.ix, g.iy + dj⟩

/-- The trajectory split of dep_current_openacc: the list of the vnp virtual
particles left in vp[begin..begin+vnp-1].  The parameter junk is the content
of the uninitialized slot vp[begin+1], read only in the aliased case (which
cannot arise from the calls the kernels make). -/
noncomputable def dep_current_split (ix iy di dj : ℤ) (x0 y0 dx dy qvz : ℝ)
    (junk : Vp) : List Vp :=
  let v0 : Vp := ⟨x0, x0 + dx, y0, y0 + dy, dx, dy, qvz / 2, ix, iy⟩
  if di ≠ 0 then
    let ib : ℤ := if di = 1 then 1 else 0
    let delta := (x0 + dx - (ib : ℝ)) / dx
    let ycross := y0 + dy * (1 - delta)
    let v1 : Vp := ⟨1 - (ib : ℝ), (x0 + dx) - (di : ℝ), ycross, v0.y1,
      dx * delta, dy * delta, v0.qvz * delta, ix + di, iy⟩
    let v0a : Vp := { v0 with
      x1 := (ib : ℝ)
      dx := dx * (1 - delta)
      dy := dy * (1 - delta)
      y1 := ycross
      qvz := v0.qvz * (1 - delta) }
    if dj ≠ 0 then
      if v0a.y1 < 0 ∨ 1 ≤ v0a.y1 then
        -- isy = 0: split the first segment, then shift the extra segment
        let p := dep_ysplit v0a dj
        let v1s : Vp := { v1 with
          y0 := v1.y0 - (dj : ℝ)
          y1 := v1.y1 - (dj : ℝ)
          iy := v1.iy + dj }
        [p.1, v1s, p.2]
      else
        -- isy = 1: split the second segment
        let p := dep_ysplit v1 dj
        [v0a, p.1, p.2]
    else [v0a, v1]
  else
    if dj ≠ 0 then
      if v0.y1 < 0 ∨ 1 ≤ v0.y1 then
        let p := dep_ysplit v0 dj
        [p.1, p.2]
      else
        [v0, dep_yalias junk dj]
    else [v0]

/-- C10 (amended): for every input whose y crossing flag is the one the
pusher computes, dj = LTRIM(y0+dy), the trajectory split produces between
one and three virtual particles, staying inside the three-slot window
vp[begin..begin+2], and conserves the totals: the dx fields sum to dx, the
dy fields to dy and the qvz fields to qvz/2.  For other inputs with
abs di <= 1 and abs dj <= 1 (di = 0 together with dj nonzero although the
trajectory does not cross a y boundary) the split reads the uninitialized
slot vp[begin+1] and then need not conserve the totals. -/
theorem claim_C10_dep_split (ix iy di dj : ℤ) (x0 y0 dx dy qvz : ℝ)
    (junk : Vp) (hdj : dj = LTRIM (y0 + dy)) :
    1 ≤ (dep_current_split ix iy di dj x0 y0 dx dy qvz junk).length
    ∧ (dep_current_split ix iy di dj x0 y0 dx dy qvz junk).length ≤ 3
    ∧ ((dep_current_split ix iy di dj x0 y0 dx dy qvz junk).map Vp.dx).sum = dx
    ∧ ((dep_current_split ix iy di dj x0 y0 dx dy qvz junk).map Vp.dy).sum = dy
    ∧ ((dep_current_split ix iy di dj x0 y0 dx dy qvz junk).map Vp.qvz).sum
        = qvz / 2 := by
  have halias : di = 0 → dj ≠ 0 → ¬ ¬ (y0 + dy < 0 ∨ 1 ≤ y0 + dy) := by
    intro _ hdj0 hc
    push_neg at hc
    apply hdj0
    rw [hdj]
    unfold LTRIM
    rw [if_neg (by linarith), if_neg (by linarith)]
  by_cases hdi0 : di = 0
  · by_cases hdj0 : dj = 0
    · unfold dep_current_split
      rw [if_neg (by simpa using hdi0), if_neg (by simpa using hdj0)]
      refine ⟨by simp, by simp, ?_, ?_, ?_⟩
      all_goals simp
    · unfold dep_current_split
      rw [if_neg (by simpa using hdi0), if_pos (by simpa using hdj0)]
      have hcond : ((⟨x0, x0 + dx, y0, y0 + dy, dx, dy, qvz / 2, ix, iy⟩ : Vp).y1 < 0
          ∨ 1 ≤ (⟨x0, x0 + dx, y0, y0 + dy, dx, dy, qvz / 2, ix, iy⟩ : Vp).y1) := by
        have h := halias hdi0 hdj0
        by_contra hc
        exact h hc
      rw [if_pos hcond]
      unfold dep_ysplit
      refine ⟨by simp, by simp, ?_, ?_, ?_⟩
      all_goals simp
      all_goals ring
  · by_cases hdj0 : dj = 0
    · unfold dep_current_split
      rw [if_pos (by simpa using hdi0), if_neg (by simpa using hdj0)]
      refine ⟨by simp, by simp, ?_, ?_, ?_⟩
      all_goals simp
      all_goals ring
    · unfold dep_current_split
      rw [if_pos (by simpa using hdi0), if_pos (by simpa using hdj0)]
      by_cases hy : (y0 + dy * (1 - (x0 + dx - ((if di = 1 then (1 : ℤ) else 0) : ℤ)) / dx) < 0
          ∨ 1 ≤ y0 + dy * (1 - (x0 + dx - ((if di = 1 then (1 : ℤ) else 0) : ℤ)) / dx))
      · rw [if_pos (by exact hy)]
        unfold dep_ysplit
        refine ⟨by simp, by simp, ?_, ?_, ?_⟩
        all_goals simp
        all_goals ring
      · rw [if_neg (by exact hy)]
        unfold dep_ysplit
        refine ⟨by simp, by simp, ?_, ?_, ?_⟩
        all_goals simp
        all_goals ring

/-- C10 witness: the theorem applied to a particle crossing the right x
boundary and the upper y boundary. -/
theorem claim_C10_dep_split_witness :
    ((1 : ℤ) = LTRIM (1 / 2 + 3 / 4))
    ∧ (1 ≤ (dep_current_split 0 0 1 1 (1 / 2) (1 / 2) (3 / 4) (3 / 4) 1
          (⟨0, 0, 0, 0, 0, 0, 0, 0, 0⟩ : Vp)).length
      ∧ (dep_current_split 0 0 1 1 (1 / 2) (1 / 2) (3 / 4) (3 / 4) 1
          (⟨0, 0, 0, 0, 0, 0, 0, 0, 0⟩ : Vp)).length ≤ 3
      ∧ ((dep_current_split 0 0 1 1 (1 / 2) (1 / 2) (3 / 4) (3 / 4) 1
          (⟨0, 0, 0, 0, 0, 0, 0, 0, 0⟩ : Vp)).map Vp.dx).sum = 3 / 4
      ∧ ((dep_current_split 0 0 1 1 (1 / 2) (1 / 2) (3 / 4) (3 / 4) 1
          (⟨0, 0, 0, 0, 0, 0, 0, 0, 0⟩ : Vp)).map Vp.dy).sum = 3 / 4
      ∧ ((dep_current_split 0 0 1 1 (1 / 2) (1 / 2) (3 / 4) (3 / 4) 1
          (⟨0, 0, 0, 0, 0, 0, 0, 0, 0⟩ : Vp)).map Vp.qvz).sum = 1 / 2) := by
  have hL : (1 : ℤ) = LTRIM (1 / 2 + 3 / 4) := by
    unfold LTRIM
    rw [if_neg (by norm_num), if_pos (by norm_num)]
  refine ⟨hL, ?_⟩
  have h := claim_C10_dep_split 0 0 1 1 (1 / 2) (1 / 2) (3 / 4) (3 / 4) 1
    (⟨0, 0, 0, 0, 0, 0, 0, 0, 0⟩ : Vp) hL
  exact ⟨h.1, h.2.1, h.2.2.1, h.2.2.2.1, by rw [h.2.2.2.2]⟩

/-- C10 (counterexample): the input di = 0, dj = 1, x0 = 0, y0 = 3/10,
dx = 0, dy = 1/5 satisfies the claim hypotheses abs di <= 1 and
abs dj <= 1, but makes the code read the uninitialized slot vp[begin+1];
with that slot holding (0,0,0,0,0,1,0,0,0) the dy fields of the produced
virtual particles sum to 1/5 - 2, not to dy = 1/5, so the conservation
stated by the claim fails. -/
theorem claim_C10_counterexample :
    |(0 : ℤ)| ≤ 1 ∧ |(1 : ℤ)| ≤ 1
    ∧ ((dep_current_split 0 0 0 1 0 (3 / 10) 0 (1 / 5) 0
        (⟨0, 0, 0, 0, 0, 1, 0, 0, 0⟩ : Vp)).map Vp.dy).sum ≠ (1 / 5 : ℝ) := by
  refine ⟨by decide, by decide, ?_⟩
  norm_num [dep_current_split, dep_yalias]

/-- Particle state of one slot of the structure-of-arrays particle vector
(the per-slot slice of t_particle_vector). -/
structure Part where
  ix : ℤ
  iy : ℤ
  x : ℝ
  y : ℝ
  ux : ℝ
  uy : ℝ
  uz : ℝ
  invalid : Bool

/-- The relativistic Lorentz factor of a particle, sqrt(1 + u.u). -/
noncomputable def pgamma (ux uy uz : ℝ) : ℝ :=
  Real.sqrt (1 + (ux * ux + uy * uy + uz * uz))

/-- interpolate_fld_openacc of kernel_particles.c, in 2D cell coordinates
(the stride nrow disappears in the coordinate model). -/
noncomputable def interpolate_fld (E B : Cell → Vfld ℝ) (ix iy : ℤ)
    (x y : ℝ) : Vfld ℝ × Vfld ℝ :=
  let ih : ℤ := ix + (if x < 1 / 2 then -1 else 0)
  let jh : ℤ := iy + (if y < 1 / 2 then -1 else 0)
  let w1h : ℝ := x + (if x < 1 / 2 then 1 / 2 else -(1 / 2))
  let w2h : ℝ := y + (if y < 1 / 2 then 1 / 2 else -(1 / 2))
  (⟨((E (ih, iy)).x * (1 - w1h) + (E (ih + 1, iy)).x * w1h) * (1 - y)
      + ((E (ih, iy + 1)).x * (1 - w1h) + (E (ih + 1, iy + 1)).x * w1h) * y,
    ((E (ix, jh)).y * (1 - x) + (E (ix + 1, jh)).y * x) * (1 - w2h)
      + ((E (ix, jh + 1)).y * (1 - x) + (E (ix + 1, jh + 1)).y * x) * w2h,
    ((E (ix, iy)).z * (1 - x) + (E (ix + 1, iy)).z * x) * (1 - y)
      + ((E (ix, iy + 1)).z * (1 - x) + (E (ix + 1, iy + 1)).z * x) * y⟩,
   ⟨((B (ix, jh)).x * (1 - x) + (B (ix + 1, jh)).x * x) * (1 - w2h)
      + ((B (ix, jh + 1)).x * (1 - x) + (B (ix + 1, jh + 1)).x * x) * w2h,
    ((B (ih, iy)).y * (1 - w1h) + (B (ih + 1, iy)).y * w1h) * (1 - y)
      + ((B (ih, iy + 1)).y * (1 - w1h) + (B (ih + 1, iy + 1)).y * w1h) * y,
    ((B (ih, jh)).z * (1 - w1h) + (B (ih + 1, jh)).z * w1h) * (1 - w2h)
      + ((B (ih, jh + 1)).z * (1 - w1h) + (B (ih + 1, jh + 1)).z * w1h) * w2h⟩)

/-- advance_part_velocity of kernel_particles.c (the Boris rotation). -/
noncomputable def advance_part_velocity (u Ep Bp : Vfld ℝ) (tem : ℝ) : Vfld ℝ :=
  let Es : Vfld ℝ := ⟨Ep.x * tem, Ep.y * tem, Ep.z * tem⟩
  let ut : Vfld ℝ := ⟨u.x + Es.x, u.y + Es.y, u.z + Es.z⟩
  let ustq := ut.x * ut.x + ut.y * ut.y + ut.z * ut.z
  let gtem := tem / Real.sqrt (1 + ustq)
  let B1 : Vfld ℝ := ⟨Bp.x * gtem, Bp.y * gtem, Bp.z * gtem⟩
  let v : Vfld ℝ := ⟨ut.x + ut.y * B1.z - ut.z * B1.y,
    ut.y + ut.z * B1.x - ut.x * B1.z, ut.z + ut.x * B1.y - ut.y * B1.x⟩
  let Bmag := B1.x * B1.x + B1.y * B1.y + B1.z * B1.z
  let otsq := 2 / (1 + Bmag)
  let B2 : Vfld ℝ := ⟨B1.x * otsq, B1.y * otsq, B1.z * otsq⟩
  let ut2 : Vfld ℝ := ⟨ut.x + (v.y * B2.z - v.z * B2.y),
    ut.y + (v.z * B2.x - v.x * B2.z), ut.z + (v.x * B2.y - v.y * B2.x)⟩
  ⟨ut2.x + Es.x, ut2.y + Es.y, ut2.z + Es.z⟩

/-- Result of the per-particle push preceding the stores and the current
deposition. -/
structure PushResult where
  u : Vfld ℝ
  x1 : ℝ
  y1 : ℝ
  di : ℤ
  dj : ℤ
  dx : ℝ
  dy : ℝ
  qvz : ℝ

/-- The per-particle body shared by both advance kernels: interpolate the
fields at the given cell index, rotate the momentum, push the position.
The cell index (ix, iy) is the one the calling kernel computes (global
with the region offset subtracted, or tile-local). -/
noncomputable def pushParticle (tem dt_dx dt_dy q : ℝ) (E B : Cell → Vfld ℝ)
    (ix iy : ℤ) (x y ux uy uz : ℝ) : PushResult :=
  let EB := interpolate_fld E B ix iy x y
  let u1 := advance_part_velocity ⟨ux, uy, uz⟩ EB.1 EB.2 tem
  let usq := u1.x * u1.x + u1.y * u1.y + u1.z * u1.z
  let rg := 1 / Real.sqrt (1 + usq)
  let dx := dt_dx * rg * u1.x
  let dy := dt_dy * rg * u1.y
  let x1 := x + dx
  let y1 := y + dy
  ⟨u1, x1, y1, LTRIM x1, LTRIM y1, dx, dy, q * u1.z * rg⟩

/-- The store section of the advance kernels for one particle slot: the
invalid check, then x = x1 - di, y = y1 - dj, ix += di, iy += dj and the
three momentum stores (spec_advance_openacc_default, lines storing the
results). -/
noncomputable def spec_advance_cell (tem dt_dx dt_dy q : ℝ)
    (E B : Cell → Vfld ℝ) (region_offset : ℤ) (p : Part) : Part :=
  if p.invalid then p
  else
    let P := pushParticle tem dt_dx dt_dy q E B p.ix (p.iy - region_offset)
      p.x p.y p.ux p.uy p.uz
    { p with
        x := P.x1 - (P.di : ℝ)
        y := P.y1 - (P.dj : ℝ)
        ix := p.ix + P.di
        iy := p.iy + P.dj
        ux := P.u.x
        uy := P.u.y
        uz := P.u.z }

theorem interpolate_fld_zero (ix iy : ℤ) (x y : ℝ) :
    interpolate_fld (fun _ => ⟨0, 0, 0⟩) (fun _ => ⟨0, 0, 0⟩) ix iy x y
      = (⟨0, 0, 0⟩, ⟨0, 0, 0⟩) := by
  unfold interpolate_fld
  refine Prod.ext ?_ ?_
  all_goals
    show Vfld.mk _ _ _ = Vfld.mk 0 0 0
    simp only
    norm_num

theorem advance_part_velocity_zero (u : Vfld ℝ) (tem : ℝ) :
    advance_part_velocity u ⟨0, 0, 0⟩ ⟨0, 0, 0⟩ tem = u := by
  unfold advance_part_velocity
  show Vfld.mk _ _ _ = u
  simp only
  norm_num

theorem LTRIM_store_bounds (x d : ℝ) (hx0 : 0 ≤ x) (hx1 : x < 1)
    (hd : |d| ≤ 1) :
    0 ≤ x + d - ((LTRIM (x + d) : ℤ) : ℝ)
      ∧ x + d - ((LTRIM (x + d) : ℤ) : ℝ) < 1 := by
  rcases abs_le.mp hd with ⟨hd1, hd2⟩
  unfold LTRIM
  split_ifs with h1 h2
  · push_cast
    constructor <;> linarith
  · push_cast
    constructor <;> linarith
  · rw [not_lt] at h1
    rw [not_le] at h2
    push_cast
    constructor <;> linarith

theorem pushParticle_zero (tem dt_dx dt_dy q : ℝ) (ix iy : ℤ)
    (x y ux uy uz : ℝ) :
    pushParticle tem dt_dx dt_dy q (fun _ => ⟨0, 0, 0⟩) (fun _ => ⟨0, 0, 0⟩)
        ix iy x y ux uy uz
      = ⟨⟨ux, uy, uz⟩,
          x + dt_dx * (1 / pgamma ux uy uz) * ux,
          y + dt_dy * (1 / pgamma ux uy uz) * uy,
          LTRIM (x + dt_dx * (1 / pgamma ux uy uz) * ux),
          LTRIM (y + dt_dy * (1 / pgamma ux uy uz) * uy),
          dt_dx * (1 / pgamma ux uy uz) * ux,
          dt_dy * (1 / pgamma ux uy uz) * uy,
          q * uz * (1 / pgamma ux uy uz)⟩ := by
  unfold pushParticle
  rw [interpolate_fld_zero]
  show PushResult.mk _ _ _ _ _ _ _ _ = _
  rw [advance_part_velocity_zero ⟨ux, uy, uz⟩ tem]
  rfl

/-- C2: for a particle not marked invalid, advancing with E = B = 0 leaves
the momentum unchanged and pushes the position linearly: with
gamma = sqrt(1 + |u|^2), the stored fractional x is
x + dt_dx*ux/gamma - di with ix increased by di = LTRIM of the free-moved
position, symmetrically in y; and, under the amended CFL hypotheses
0 <= x < 1, 0 <= y < 1, |dt_dx*ux/gamma| <= 1 and |dt_dy*uy/gamma| <= 1
(in place of the claim's vacuous |di| <= 1 and |dj| <= 1), the stored
fractional positions lie in [0,1). -/
theorem claim_C2_zero_field_push (tem dt_dx dt_dy q : ℝ) (roff : ℤ)
    (p : Part) (hinv : p.invalid = false)
    (hx0 : 0 ≤ p.x) (hx1 : p.x < 1) (hy0 : 0 ≤ p.y) (hy1 : p.y < 1)
    (hdx : |dt_dx * (1 / pgamma p.ux p.uy p.uz) * p.ux| ≤ 1)
    (hdy : |dt_dy * (1 / pgamma p.ux p.uy p.uz) * p.uy| ≤ 1) :
    spec_advance_cell tem dt_dx dt_dy q (fun _ => ⟨0, 0, 0⟩)
        (fun _ => ⟨0, 0, 0⟩) roff p
      = { p with
            x := p.x + dt_dx * (1 / pgamma p.ux p.uy p.uz) * p.ux
              - ((LTRIM (p.x + dt_dx * (1 / pgamma p.ux p.uy p.uz) * p.ux)
                    : ℤ) : ℝ)
            y := p.y + dt_dy * (1 / pgamma p.ux p.uy p.uz) * p.uy
              - ((LTRIM (p.y + dt_dy * (1 / pgamma p.ux p.uy p.uz) * p.uy)
                    : ℤ) : ℝ)
            ix := p.ix
              + LTRIM (p.x + dt_dx * (1 / pgamma p.ux p.uy p.uz) * p.ux)
            iy := p.iy
              + LTRIM (p.y + dt_dy * (1 / pgamma p.ux p.uy p.uz) * p.uy) }
      ∧ 0 ≤ (spec_advance_cell tem dt_dx dt_dy q (fun _ => ⟨0, 0, 0⟩)
          (fun _ => ⟨0, 0, 0⟩) roff p).x
      ∧ (spec_advance_cell tem dt_dx dt_dy q (fun _ => ⟨0, 0, 0⟩)
          (fun _ => ⟨0, 0, 0⟩) roff p).x < 1
      ∧ 0 ≤ (spec_advance_cell tem dt_dx dt_dy q (fun _ => ⟨0, 0, 0⟩)
          (fun _ => ⟨0, 0, 0⟩) roff p).y
      ∧ (spec_advance_cell tem dt_dx dt_dy q (fun _ => ⟨0, 0, 0⟩)
          (fun _ => ⟨0, 0, 0⟩) roff p).y < 1 := by
  have hc : spec_advance_cell tem dt_dx dt_dy q (fun _ => ⟨0, 0, 0⟩)
      (fun _ => ⟨0, 0, 0⟩) roff p
      = { p with
            x := p.x + dt_dx * (1 / pgamma p.ux p.uy p.uz) * p.ux
              - ((LTRIM (p.x + dt_dx * (1 / pgamma p.ux p.uy p.uz) * p.ux)
                    : ℤ) : ℝ)
            y := p.y + dt_dy * (1 / pgamma p.ux p.uy p.uz) * p.uy
              - ((LTRIM (p.y + dt_dy * (1 / pgamma p.ux p.uy p.uz) * p.uy)
                    : ℤ) : ℝ)
            ix := p.ix
              + LTRIM (p.x + dt_dx * (1 / pgamma p.ux p.uy p.uz) * p.ux)
            iy := p.iy
              + LTRIM (p.y + dt_dy * (1 / pgamma p.ux p.uy p.uz) * p.uy) }
      := by
    unfold spec_advance_cell
    rw [hinv]
    rw [if_neg Bool.false_ne_true]
    rw [pushParticle_zero]
  refine ⟨hc, ?_, ?_, ?_, ?_⟩ <;> rw [hc]
  · exact (LTRIM_store_bounds p.x
      (dt_dx * (1 / pgamma p.ux p.uy p.uz) * p.ux) hx0 hx1 hdx).1
  · exact (LTRIM_store_bounds p.x
      (dt_dx * (1 / pgamma p.ux p.uy p.uz) * p.ux) hx0 hx1 hdx).2
  · exact (LTRIM_store_bounds p.y
      (dt_dy * (1 / pgamma p.ux p.uy p.uz) * p.uy) hy0 hy1 hdy).1
  · exact (LTRIM_store_bounds p.y
      (dt_dy * (1 / pgamma p.ux p.uy p.uz) * p.uy) hy0 hy1 hdy).2

theorem claim_C2_zero_field_push_witness :
    spec_advance_cell 1 1 1 1 (fun _ => ⟨0, 0, 0⟩) (fun _ => ⟨0, 0, 0⟩) 0
        ⟨0, 0, 1 / 2, 1 / 2, 0, 0, 0, false⟩
      = { (⟨0, 0, 1 / 2, 1 / 2, 0, 0, 0, false⟩ : Part) with
            x := 1 / 2 + 1 * (1 / pgamma 0 0 0) * 0
              - ((LTRIM (1 / 2 + 1 * (1 / pgamma 0 0 0) * 0) : ℤ) : ℝ)
            y := 1 / 2 + 1 * (1 / pgamma 0 0 0) * 0
              - ((LTRIM (1 / 2 + 1 * (1 / pgamma 0 0 0) * 0) : ℤ) : ℝ)
            ix := 0 + LTRIM (1 / 2 + 1 * (1 / pgamma 0 0 0) * 0)
            iy := 0 + LTRIM (1 / 2 + 1 * (1 / pgamma 0 0 0) * 0) }
      ∧ 0 ≤ (spec_advance_cell 1 1 1 1 (fun _ => ⟨0, 0, 0⟩)
          (fun _ => ⟨0, 0, 0⟩) 0 ⟨0, 0, 1 / 2, 1 / 2, 0, 0, 0, false⟩).x
      ∧ (spec_advance_cell 1 1 1 1 (fun _ => ⟨0, 0, 0⟩)
          (fun _ => ⟨0, 0, 0⟩) 0 ⟨0, 0, 1 / 2, 1 / 2, 0, 0, 0, false⟩).x < 1
      ∧ 0 ≤ (spec_advance_cell 1 1 1 1 (fun _ => ⟨0, 0, 0⟩)
          (fun _ => ⟨0, 0, 0⟩) 0 ⟨0, 0, 1 / 2, 1 / 2, 0, 0, 0, false⟩).y
      ∧ (spec_advance_cell 1 1 1 1 (fun _ => ⟨0, 0, 0⟩)
          (fun _ => ⟨0, 0, 0⟩) 0 ⟨0, 0, 1 / 2, 1 / 2, 0, 0, 0, false⟩).y
          < 1 :=
  claim_C2_zero_field_push 1 1 1 1 0 ⟨0, 0, 1 / 2, 1 / 2, 0, 0, 0, false⟩
    rfl (by norm_num) (by norm_num) (by norm_num) (by norm_num)
    (by simp) (by simp)

/-- C2 counterexample to the claim as stated: a particle with
x = 1/2, ux = 3/4 and dt_dx = 10/3 satisfies the claim's CFL
precondition |di| <= 1 and |dj| <= 1 (di and dj read off as the change of
the stored cell index), yet its stored fractional position is 3/2, outside
[0,1): the claim's precondition holds for every input, since LTRIM only
returns -1, 0 or 1, so it cannot bound the stored position. -/
theorem claim_C2_counterexample :
    |(spec_advance_cell 1 (10 / 3) 1 1 (fun _ => ⟨0, 0, 0⟩)
        (fun _ => ⟨0, 0, 0⟩) 0 ⟨0, 0, 1 / 2, 1 / 2, 3 / 4, 0, 0, false⟩).ix|
        ≤ 1
      ∧ |(spec_advance_cell 1 (10 / 3) 1 1 (fun _ => ⟨0, 0, 0⟩)
        (fun _ => ⟨0, 0, 0⟩) 0 ⟨0, 0, 1 / 2, 1 / 2, 3 / 4, 0, 0, false⟩).iy|
        ≤ 1
      ∧ 1 ≤ (spec_advance_cell 1 (10 / 3) 1 1 (fun _ => ⟨0, 0, 0⟩)
        (fun _ => ⟨0, 0, 0⟩) 0
        ⟨0, 0, 1 / 2, 1 / 2, 3 / 4, 0, 0, false⟩).x := by
  have hg : pgamma (3 / 4) 0 0 = 5 / 4 := by
    unfold pgamma
    rw [show (1 : ℝ) + (3 / 4 * (3 / 4) + 0 * 0 + 0 * 0) = (5 / 4) ^ 2 by
      norm_num]
    exact Real.sqrt_sq (by norm_num)
  have hc : spec_advance_cell 1 (10 / 3) 1 1 (fun _ => ⟨0, 0, 0⟩)
      (fun _ => ⟨0, 0, 0⟩) 0 ⟨0, 0, 1 / 2, 1 / 2, 3 / 4, 0, 0, false⟩
      = { (⟨0, 0, 1 / 2, 1 / 2, 3 / 4, 0, 0, false⟩ : Part) with
            x := 1 / 2 + 10 / 3 * (1 / pgamma (3 / 4) 0 0) * (3 / 4)
              - ((LTRIM (1 / 2 + 10 / 3 * (1 / pgamma (3 / 4) 0 0) * (3 / 4))
                    : ℤ) : ℝ)
            y := 1 / 2 + 1 * (1 / pgamma (3 / 4) 0 0) * 0
              - ((LTRIM (1 / 2 + 1 * (1 / pgamma (3 / 4) 0 0) * 0) : ℤ) : ℝ)
            ix := 0 + LTRIM (1 / 2 + 10 / 3 * (1 / pgamma (3 / 4) 0 0)
              * (3 / 4))
            iy := 0 + LTRIM (1 / 2 + 1 * (1 / pgamma (3 / 4) 0 0) * 0) }
      := by
    unfold spec_advance_cell
    rw [if_neg Bool.false_ne_true]
    rw [pushParticle_zero]
  rw [hc]
  have hxv : (1 : ℝ) / 2 + 10 / 3 * (1 / pgamma (3 / 4) 0 0) * (3 / 4)
      = 5 / 2 := by
    rw [hg]; norm_num
  have hyv : (1 : ℝ) / 2 + 1 * (1 / pgamma (3 / 4) 0 0) * 0 = 1 / 2 := by
    rw [hg]; norm_num
  have hLx : LTRIM ((1 : ℝ) / 2 + 10 / 3 * (1 / pgamma (3 / 4) 0 0)
      * (3 / 4)) = 1 := by
    rw [hxv]; unfold LTRIM; norm_num
  have hLy : LTRIM ((1 : ℝ) / 2 + 1 * (1 / pgamma (3 / 4) 0 0) * 0)
      = 0 := by
    rw [hyv]; unfold LTRIM; norm_num
  refine ⟨?_, ?_, ?_⟩
  · show |0 + LTRIM ((1 : ℝ) / 2 + 10 / 3 * (1 / pgamma (3 / 4) 0 0)
      * (3 / 4))| ≤ 1
    rw [hLx]; norm_num
  · show |0 + LTRIM ((1 : ℝ) / 2 + 1 * (1 / pgamma (3 / 4) 0 0) * 0)| ≤ 1
    rw [hLy]; norm_num
  · show 1 ≤ (1 : ℝ) / 2 + 10 / 3 * (1 / pgamma (3 / 4) 0 0) * (3 / 4)
      - ((LTRIM ((1 : ℝ) / 2 + 10 / 3 * (1 / pgamma (3 / 4) 0 0) * (3 / 4))
          : ℤ) : ℝ)
    rw [hxv]; unfold LTRIM; norm_num

/-! ## Boundary pass (claim C4) -/

/-- The slot indices i with a <= i < b, in increasing order (the range of a
particle loop `for (i = begin; i < end; i++)`). -/
def natIco (a b : ℕ) : List ℕ := (List.range (b - a)).map (fun t => a + t)

theorem mem_natIco {a b i : ℕ} : i ∈ natIco a b ↔ a ≤ i ∧ i < b := by
  simp only [natIco, List.mem_map, List.mem_range]
  constructor
  · rintro ⟨t, ht, rfl⟩
    omega
  · rintro ⟨h1, h2⟩
    exact ⟨i - a, by omega, by omega⟩

theorem nodup_natIco (a b : ℕ) : (natIco a b).Nodup := by
  refine List.Nodup.map ?_ (List.nodup_range _)
  intro s t hst
  have h2 : a + s = a + t := hst
  omega

theorem flatMap_congr_mem {α γ : Type} (l : List α) (f g : α → List γ)
    (h : ∀ a ∈ l, f a = g a) : l.flatMap f = l.flatMap g := by
  induction l with
  | nil => rfl
  | cons a t ih =>
    rw [List.flatMap_cons, List.flatMap_cons, h a (List.mem_cons_self a t),
      ih (fun b hb => h b (List.mem_cons_of_mem a hb))]

/-- Loop-to-pointwise lemma for a loop that, at each visited slot, replaces
the slot by a function of its own value and appends to an output list a
chunk computed from the same value: over pairwise distinct slots the array
becomes the pointwise map and the output collects the chunks of the
original values in loop order. -/
theorem foldl_update_emit_eq {κ β γ : Type} [DecidableEq κ] (l : List κ)
    (f : β → β) (e : β → List γ) (hl : l.Nodup) (A : κ → β)
    (out : List γ) :
    l.foldl (fun s k => (Function.update s.1 k (f (s.1 k)),
        s.2 ++ e (s.1 k))) (A, out)
      = (fun k => if k ∈ l then f (A k) else A k,
         out ++ l.flatMap (fun k => e (A k))) := by
  induction l generalizing A out with
  | nil =>
    simp only [List.foldl_nil, List.flatMap_nil, List.append_nil]
    refine Prod.ext ?_ rfl
    funext k
    simp
  | cons a t ih =>
    have hat : a ∉ t := (List.nodup_cons.mp hl).1
    have htnd : t.Nodup := (List.nodup_cons.mp hl).2
    simp only [List.foldl_cons]
    rw [ih htnd]
    refine Prod.ext ?_ ?_
    · funext k
      by_cases hkt : k ∈ t
      · have hka : k ≠ a := fun h => hat (h ▸ hkt)
        simp [hkt, hka, Function.update_noteq hka]
      · by_cases hka : k = a
        · subst hka
          simp [hkt, Function.update_same]
        · simp [hkt, hka, Function.update_noteq hka]
    · show out ++ e (A a)
          ++ t.flatMap (fun k => e (Function.update A a (f (A a)) k))
        = out ++ (a :: t).flatMap (fun k => e (A k))
      rw [flatMap_congr_mem t
        (fun k => e (Function.update A a (f (A a)) k)) (fun k => e (A k))
        (fun k hk => by
          have hka : k ≠ a := fun h => hat (h ▸ hk)
          show e (Function.update A a (f (A a)) k) = e (A k)
          rw [Function.update_noteq hka])]
      rw [List.flatMap_cons, List.append_assoc]

/-- Tile indices scanned by the x-left pass: tile_idx = tile_y * n_tiles_x
for tile_y in [0, n_tiles_y) (the first tile column). -/
def leftTiles (ntx nty : ℕ) : List ℕ :=
  (List.range nty).map (fun ty => ty * ntx)

/-- Tile indices scanned by the x-right pass:
tile_idx = (tile_y + 1) * n_tiles_x - 1 (the last tile column). -/
def rightTiles (ntx nty : ℕ) : List ℕ :=
  (List.range nty).map (fun ty => (ty + 1) * ntx - 1)

/-- Tile indices scanned by the y-down pass: tile_idx = tile_x for tile_x
in [0, n_tiles_x) (the first tile row). -/
def downTiles (ntx : ℕ) : List ℕ := List.range ntx

/-- Tile indices scanned by the y-up pass:
tile_idx = tile_x + (n_tiles_y - 1) * n_tiles_x (the last tile row). -/
def upTiles (ntx nty : ℕ) : List ℕ :=
  (List.range ntx).map (fun tx => tx + (nty - 1) * ntx)

/-- Slot indices of a pass: the union, in tile order, of the slot ranges
[tile_offset[t], tile_offset[t+1]) of its tiles. -/
def passIdxs (off : ℕ → ℕ) (tiles : List ℕ) : List ℕ :=
  tiles.flatMap (fun t => natIco (off t) (off (t + 1)))

theorem nodup_passIdxs (off : ℕ → ℕ) (hmono : Monotone off)
    (tiles : List ℕ) (hp : tiles.Pairwise (· < ·)) :
    (passIdxs off tiles).Nodup := by
  unfold passIdxs
  refine List.nodup_flatMap.mpr ⟨fun t _ => nodup_natIco _ _, ?_⟩
  refine List.Pairwise.imp ?_ hp
  intro t1 t2 hlt
  intro i hi1 hi2
  rw [mem_natIco] at hi1 hi2
  have hle : off (t1 + 1) ≤ off t2 := hmono (by omega)
  omega

theorem pairwise_leftTiles (ntx nty : ℕ) (h : 1 ≤ ntx) :
    (leftTiles ntx nty).Pairwise (· < ·) := by
  unfold leftTiles
  refine List.Pairwise.map _ ?_ (List.pairwise_lt_range nty)
  intro a b hab
  exact Nat.mul_lt_mul_of_lt_of_le hab (le_refl ntx) h

theorem pairwise_rightTiles (ntx nty : ℕ) (h : 1 ≤ ntx) :
    (rightTiles ntx nty).Pairwise (· < ·) := by
  unfold rightTiles
  refine List.Pairwise.map _ ?_ (List.pairwise_lt_range nty)
  intro a b hab
  have h1 : (a + 1) * ntx < (b + 1) * ntx :=
    Nat.mul_lt_mul_of_lt_of_le (by omega) (le_refl ntx) h
  have h2 : 1 ≤ (a + 1) * ntx := by
    calc 1 = 1 * 1 := by omega
    _ ≤ (a + 1) * ntx := Nat.mul_le_mul (by omega) h
  omega

theorem pairwise_downTiles (ntx : ℕ) :
    (downTiles ntx).Pairwise (· < ·) := List.pairwise_lt_range ntx

theorem pairwise_upTiles (ntx nty : ℕ) :
    (upTiles ntx nty).Pairwise (· < ·) := by
  unfold upTiles
  refine List.Pairwise.map _ ?_ (List.pairwise_lt_range ntx)
  intro a b hab
  omega

/-- Effect of the x-left pass on one scanned slot (both moving-window
branches). -/
def xLeftFix (mw : Bool) (nx0 : ℤ) (p : Part) : Part :=
  if p.ix < 0 then
    (if mw then { p with invalid := true }
     else { p with ix := p.ix + nx0 })
  else p

/-- Effect of the x-right pass on one scanned slot. -/
def xRightFix (mw : Bool) (nx0 : ℤ) (p : Part) : Part :=
  if nx0 ≤ p.ix then
    (if mw then { p with invalid := true }
     else { p with ix := p.ix - nx0 })
  else p

/-- Effect of the y-down pass on one scanned main-vector slot. -/
def yDownFix (y0 : ℤ) (p : Part) : Part :=
  if p.invalid then p
  else if p.iy < y0 then { p with invalid := true } else p

/-- Particles the y-down pass appends to the outgoing-down buffer from one
scanned slot: the slot's particle with iy wrapped by +nx1 when negative
and invalid cleared. -/
def yDownEmit (y0 nx1 : ℤ) (p : Part) : List Part :=
  if p.invalid then []
  else if p.iy < y0 then
    [{ p with
        iy := if p.iy < 0 then p.iy + nx1 else p.iy
        invalid := false }]
  else []

/-- Effect of the y-up pass on one scanned main-vector slot. -/
def yUpFix (y1 : ℤ) (p : Part) : Part :=
  if p.invalid then p
  else if y1 ≤ p.iy then { p with invalid := true } else p

/-- Particles the y-up pass appends to the outgoing-up buffer from one
scanned slot. -/
def yUpEmit (y1 nx1 : ℤ) (p : Part) : List Part :=
  if p.invalid then []
  else if y1 ≤ p.iy then
    [{ p with
        iy := if nx1 ≤ p.iy then p.iy - nx1 else p.iy
        invalid := false }]
  else []

/-- The x-left boundary pass of spec_check_boundaries_openacc: over the
given slot indices, moving window marks exiting particles (ix < 0)
invalid, otherwise they wrap by +nx0. -/
def x_left_pass (mw : Bool) (nx0 : ℤ) (idxs : List ℕ)
    (v : ℕ → Part) : ℕ → Part :=
  if mw then
    idxs.foldl (fun v i => if (v i).ix < 0 then
      Function.update v i { v i with invalid := true } else v) v
  else
    idxs.foldl (fun v i => if (v i).ix < 0 then
      Function.update v i { v i with ix := (v i).ix + nx0 } else v) v

/-- The x-right boundary pass: exiting means ix >= nx0, the wrap is
-nx0. -/
def x_right_pass (mw : Bool) (nx0 : ℤ) (idxs : List ℕ)
    (v : ℕ → Part) : ℕ → Part :=
  if mw then
    idxs.foldl (fun v i => if nx0 ≤ (v i).ix then
      Function.update v i { v i with invalid := true } else v) v
  else
    idxs.foldl (fun v i => if nx0 ≤ (v i).ix then
      Function.update v i { v i with ix := (v i).ix - nx0 } else v) v

/-- The y-down boundary pass: a non-invalid particle with iy < limits_y[0]
is appended to the outgoing buffer (iy wrapped by +nx1 if negative,
invalid cleared in the buffer slot) and its main-vector slot is marked
invalid. -/
def y_down_pass (y0 nx1 : ℤ) (idxs : List ℕ)
    (s : (ℕ → Part) × List Part) : (ℕ → Part) × List Part :=
  idxs.foldl (fun s i =>
    if (s.1 i).invalid then s
    else if (s.1 i).iy < y0 then
      (Function.update s.1 i { s.1 i with invalid := true },
       s.2 ++ [{ s.1 i with
          iy := if (s.1 i).iy < 0 then (s.1 i).iy + nx1 else (s.1 i).iy
          invalid := false }])
    else s) s

/-- The y-up boundary pass: exiting means iy >= limits_y[1], the wrap is
-nx1. -/
def y_up_pass (y1 nx1 : ℤ) (idxs : List ℕ)
    (s : (ℕ → Part) × List Part) : (ℕ → Part) × List Part :=
  idxs.foldl (fun s i =>
    if (s.1 i).invalid then s
    else if y1 ≤ (s.1 i).iy then
      (Function.update s.1 i { s.1 i with invalid := true },
       s.2 ++ [{ s.1 i with
          iy := if nx1 ≤ (s.1 i).iy then (s.1 i).iy - nx1 else (s.1 i).iy
          invalid := false }])
    else s) s

theorem x_left_pass_eq (mw : Bool) (nx0 : ℤ) (idxs : List ℕ)
    (hnd : idxs.Nodup) (v : ℕ → Part) :
    x_left_pass mw nx0 idxs v
      = fun i => if i ∈ idxs then xLeftFix mw nx0 (v i) else v i := by
  unfold x_left_pass
  cases mw with
  | true =>
    rw [if_pos rfl]
    have hstep : (fun (v : ℕ → Part) i => if (v i).ix < 0 then
        Function.update v i { v i with invalid := true } else v)
        = fun v i => Function.update v i
            ((fun (_ : ℕ) (p : Part) =>
              if p.ix < 0 then { p with invalid := true } else p) i (v i))
        := by
      funext v i
      by_cases hc : (v i).ix < 0
      · simp only [if_pos hc]
      · simp only [if_neg hc]
        exact (Function.update_eq_self i v).symm
    rw [hstep, foldl_update_self_eq idxs
      (fun _ p => if p.ix < 0 then { p with invalid := true } else p) hnd v]
    funext i
    unfold xLeftFix
    by_cases hi : i ∈ idxs
    · rw [if_pos hi, if_pos hi]
      by_cases hc : (v i).ix < 0
      · rw [if_pos hc, if_pos hc, if_pos rfl]
      · rw [if_neg hc, if_neg hc]
    · rw [if_neg hi, if_neg hi]
  | false =>
    rw [if_neg Bool.false_ne_true]
    have hstep : (fun (v : ℕ → Part) i => if (v i).ix < 0 then
        Function.update v i { v i with ix := (v i).ix + nx0 } else v)
        = fun v i => Function.update v i
            ((fun (_ : ℕ) (p : Part) =>
              if p.ix < 0 then { p with ix := p.ix + nx0 } else p) i (v i))
        := by
      funext v i
      by_cases hc : (v i).ix < 0
      · simp only [if_pos hc]
      · simp only [if_neg hc]
        exact (Function.update_eq_self i v).symm
    rw [hstep, foldl_update_self_eq idxs
      (fun _ p => if p.ix < 0 then { p with ix := p.ix + nx0 } else p)
      hnd v]
    funext i
    unfold xLeftFix
    by_cases hi : i ∈ idxs
    · rw [if_pos hi, if_pos hi]
      by_cases hc : (v i).ix < 0
      · rw [if_pos hc, if_pos hc, if_neg Bool.false_ne_true]
      · rw [if_neg hc, if_neg hc]
    · rw [if_neg hi, if_neg hi]

theorem x_right_pass_eq (mw : Bool) (nx0 : ℤ) (idxs : List ℕ)
    (hnd : idxs.Nodup) (v : ℕ → Part) :
    x_right_pass mw nx0 idxs v
      = fun i => if i ∈ idxs then xRightFix mw nx0 (v i) else v i := by
  unfold x_right_pass
  cases mw with
  | true =>
    rw [if_pos rfl]
    have hstep : (fun (v : ℕ → Part) i => if nx0 ≤ (v i).ix then
        Function.update v i { v i with invalid := true } else v)
        = fun v i => Function.update v i
            ((fun (_ : ℕ) (p : Part) =>
              if nx0 ≤ p.ix then { p with invalid := true } else p) i (v i))
        := by
      funext v i
      by_cases hc : nx0 ≤ (v i).ix
      · simp only [if_pos hc]
      · simp only [if_neg hc]
        exact (Function.update_eq_self i v).symm
    rw [hstep, foldl_update_self_eq idxs
      (fun _ p => if nx0 ≤ p.ix then { p with invalid := true } else p)
      hnd v]
    funext i
    unfold xRightFix
    by_cases hi : i ∈ idxs
    · rw [if_pos hi, if_pos hi]
      by_cases hc : nx0 ≤ (v i).ix
      · rw [if_pos hc, if_pos hc, if_pos rfl]
      · rw [if_neg hc, if_neg hc]
    · rw [if_neg hi, if_neg hi]
  | false =>
    rw [if_neg Bool.false_ne_true]
    have hstep : (fun (v : ℕ → Part) i => if nx0 ≤ (v i).ix then
        Function.update v i { v i with ix := (v i).ix - nx0 } else v)
        = fun v i => Function.update v i
            ((fun (_ : ℕ) (p : Part) =>
              if nx0 ≤ p.ix then { p with ix := p.ix - nx0 } else p) i (v i))
        := by
      funext v i
      by_cases hc : nx0 ≤ (v i).ix
      · simp only [if_pos hc]
      · simp only [if_neg hc]
        exact (Function.update_eq_self i v).symm
    rw [hstep, foldl_update_self_eq idxs
      (fun _ p => if nx0 ≤ p.ix then { p with ix := p.ix - nx0 } else p)
      hnd v]
    funext i
    unfold xRightFix
    by_cases hi : i ∈ idxs
    · rw [if_pos hi, if_pos hi]
      by_cases hc : nx0 ≤ (v i).ix
      · rw [if_pos hc, if_pos hc, if_neg Bool.false_ne_true]
      · rw [if_neg hc, if_neg hc]
    · rw [if_neg hi, if_neg hi]

theorem y_down_pass_eq (y0 nx1 : ℤ) (idxs : List ℕ) (hnd : idxs.Nodup)
    (v : ℕ → Part) (out : List Part) :
    y_down_pass y0 nx1 idxs (v, out)
      = (fun i => if i ∈ idxs then yDownFix y0 (v i) else v i,
         out ++ idxs.flatMap (fun i => yDownEmit y0 nx1 (v i))) := by
  unfold y_down_pass
  have hstep : (fun (s : (ℕ → Part) × List Part) i =>
      if (s.1 i).invalid then s
      else if (s.1 i).iy < y0 then
        (Function.update s.1 i { s.1 i with invalid := true },
         s.2 ++ [{ s.1 i with
            iy := if (s.1 i).iy < 0 then (s.1 i).iy + nx1 else (s.1 i).iy
            invalid := false }])
      else s)
      = fun s i => (Function.update s.1 i (yDownFix y0 (s.1 i)),
          s.2 ++ yDownEmit y0 nx1 (s.1 i)) := by
    funext s i
    unfold yDownFix yDownEmit
    by_cases h1 : (s.1 i).invalid
    · rw [if_pos h1, if_pos h1, if_pos h1, Function.update_eq_self,
        List.append_nil]
    · rw [if_neg h1, if_neg h1, if_neg h1]
      by_cases h2 : (s.1 i).iy < y0
      · rw [if_pos h2, if_pos h2, if_pos h2]
      · rw [if_neg h2, if_neg h2, if_neg h2, Function.update_eq_self,
          List.append_nil]
  rw [hstep]
  exact foldl_update_emit_eq idxs (yDownFix y0) (yDownEmit y0 nx1) hnd v out

theorem y_up_pass_eq (y1 nx1 : ℤ) (idxs : List ℕ) (hnd : idxs.Nodup)
    (v : ℕ → Part) (out : List Part) :
    y_up_pass y1 nx1 idxs (v, out)
      = (fun i => if i ∈ idxs then yUpFix y1 (v i) else v i,
         out ++ idxs.flatMap (fun i => yUpEmit y1 nx1 (v i))) := by
  unfold y_up_pass
  have hstep : (fun (s : (ℕ → Part) × List Part) i =>
      if (s.1 i).invalid then s
      else if y1 ≤ (s.1 i).iy then
        (Function.update s.1 i { s.1 i with invalid := true },
         s.2 ++ [{ s.1 i with
            iy := if nx1 ≤ (s.1 i).iy then (s.1 i).iy - nx1 else (s.1 i).iy
            invalid := false }])
      else s)
      = fun s i => (Function.update s.1 i (yUpFix y1 (s.1 i)),
          s.2 ++ yUpEmit y1 nx1 (s.1 i)) := by
    funext s i
    unfold yUpFix yUpEmit
    by_cases h1 : (s.1 i).invalid
    · rw [if_pos h1, if_pos h1, if_pos h1, Function.update_eq_self,
        List.append_nil]
    · rw [if_neg h1, if_neg h1, if_neg h1]
      by_cases h2 : y1 ≤ (s.1 i).iy
      · rw [if_pos h2, if_pos h2, if_pos h2]
      · rw [if_neg h2, if_neg h2, if_neg h2, Function.update_eq_self,
          List.append_nil]
  rw [hstep]
  exact foldl_update_emit_eq idxs (yUpFix y1) (yUpEmit y1 nx1) hnd v out

/-- spec_check_boundaries_openacc of kernel_particles.c: the four passes in
program order (x-left over the first tile column, x-right over the last,
y-down over the first tile row appending to outgoing_part[0], y-up over
the last tile row appending to outgoing_part[1]).  The atomic fetch-add
slot reservation is modeled by appending at the current end of the
outgoing buffer. -/
def spec_check_boundaries_openacc (mw : Bool) (nx0 nx1 y0 y1 : ℤ)
    (ntx nty : ℕ) (off : ℕ → ℕ) (v : ℕ → Part) (out0 out1 : List Part) :
    (ℕ → Part) × List Part × List Part :=
  let v1 := x_left_pass mw nx0 (passIdxs off (leftTiles ntx nty)) v
  let v2 := x_right_pass mw nx0 (passIdxs off (rightTiles ntx nty)) v1
  let s3 := y_down_pass y0 nx1 (passIdxs off (downTiles ntx)) (v2, out0)
  let s4 := y_up_pass y1 nx1 (passIdxs off (upTiles ntx nty)) (s3.1, out1)
  (s4.1, s3.2, s4.2)

/-- Pointwise state of the main vector after the x-left pass. -/
def bndV1 (mw : Bool) (nx0 : ℤ) (ntx nty : ℕ) (off : ℕ → ℕ)
    (v : ℕ → Part) : ℕ → Part :=
  fun i => if i ∈ passIdxs off (leftTiles ntx nty)
    then xLeftFix mw nx0 (v i) else v i

/-- Pointwise state after the x-right pass. -/
def bndV2 (mw : Bool) (nx0 : ℤ) (ntx nty : ℕ) (off : ℕ → ℕ)
    (v : ℕ → Part) : ℕ → Part :=
  fun i => if i ∈ passIdxs off (rightTiles ntx nty)
    then xRightFix mw nx0 (bndV1 mw nx0 ntx nty off v i)
    else bndV1 mw nx0 ntx nty off v i

/-- Pointwise state after the y-down pass. -/
def bndV3 (mw : Bool) (nx0 y0 : ℤ) (ntx nty : ℕ) (off : ℕ → ℕ)
    (v : ℕ → Part) : ℕ → Part :=
  fun i => if i ∈ passIdxs off (downTiles ntx)
    then yDownFix y0 (bndV2 mw nx0 ntx nty off v i)
    else bndV2 mw nx0 ntx nty off v i

/-- Pointwise state after the y-up pass. -/
def bndV4 (mw : Bool) (nx0 y0 y1 : ℤ) (ntx nty : ℕ) (off : ℕ → ℕ)
    (v : ℕ → Part) : ℕ → Part :=
  fun i => if i ∈ passIdxs off (upTiles ntx nty)
    then yUpFix y1 (bndV3 mw nx0 y0 ntx nty off v i)
    else bndV3 mw nx0 y0 ntx nty off v i

/-- C4: with monotone tile offsets and at least one tile column, the
boundary pass is exactly the composition of the four per-slot maps on the
scanned boundary-tile slot ranges: on the first tile column a particle
with ix < 0 wraps by +nx0 (moving window: is marked invalid), on the last
tile column ix >= nx0 wraps by -nx0 (moving window: invalid); then every
non-invalid particle of the first tile row with iy < limits_y[0] is
appended, in slot order, to the outgoing-down buffer with iy wrapped by
+nx1 when negative and its slot marked invalid, and symmetrically for the
last tile row, iy >= limits_y[1], and the outgoing-up buffer.  Slots
outside the scanned ranges are untouched, so the claim's "every particle"
holds only for particles residing in the boundary tile ranges. -/
theorem claim_C4_check_boundaries (mw : Bool) (nx0 nx1 y0 y1 : ℤ)
    (ntx nty : ℕ) (off : ℕ → ℕ) (v : ℕ → Part) (out0 out1 : List Part)
    (hmono : Monotone off) (hntx : 1 ≤ ntx) :
    spec_check_boundaries_openacc mw nx0 nx1 y0 y1 ntx nty off v out0 out1
      = (bndV4 mw nx0 y0 y1 ntx nty off v,
         out0 ++ (passIdxs off (downTiles ntx)).flatMap
           (fun i => yDownEmit y0 nx1 (bndV2 mw nx0 ntx nty off v i)),
         out1 ++ (passIdxs off (upTiles ntx nty)).flatMap
           (fun i => yUpEmit y1 nx1 (bndV3 mw nx0 y0 ntx nty off v i)))
    := by
  have h1 := nodup_passIdxs off hmono _ (pairwise_leftTiles ntx nty hntx)
  have h2 := nodup_passIdxs off hmono _ (pairwise_rightTiles ntx nty hntx)
  have h3 := nodup_passIdxs off hmono _ (pairwise_downTiles ntx)
  have h4 := nodup_passIdxs off hmono _ (pairwise_upTiles ntx nty)
  simp only [spec_check_boundaries_openacc]
  rw [x_left_pass_eq mw nx0 _ h1, x_right_pass_eq mw nx0 _ h2,
    y_down_pass_eq y0 nx1 _ h3, y_up_pass_eq y1 nx1 _ h4]
  rfl

theorem claim_C4_check_boundaries_witness :
    spec_check_boundaries_openacc false 8 8 0 8 1 1 (fun t => t)
        (fun _ => ⟨-1, 2, 0, 0, 0, 0, 0, false⟩) [] []
      = (bndV4 false 8 0 8 1 1 (fun t => t)
           (fun _ => ⟨-1, 2, 0, 0, 0, 0, 0, false⟩),
         [] ++ (passIdxs (fun t => t) (downTiles 1)).flatMap
           (fun i => yDownEmit 0 8 (bndV2 false 8 1 1 (fun t => t)
             (fun _ => ⟨-1, 2, 0, 0, 0, 0, 0, false⟩) i)),
         [] ++ (passIdxs (fun t => t) (upTiles 1 1)).flatMap
           (fun i => yUpEmit 8 8 (bndV3 false 8 0 1 1 (fun t => t)
             (fun _ => ⟨-1, 2, 0, 0, 0, 0, 0, false⟩) i))) :=
  claim_C4_check_boundaries false 8 8 0 8 1 1 (fun t => t)
    (fun _ => ⟨-1, 2, 0, 0, 0, 0, 0, false⟩) [] []
    (fun _ _ h => h) (by decide)

/-- C4 counterexample to the claim as stated: the pass only scans the
boundary tile columns and rows, so a particle with ix < 0 sitting in the
slot range of a non-first-column tile (here tile 1 of a 2 x 1 tile grid,
with the first-column tile empty) is neither wrapped by +nx0 nor marked
invalid: the claim's "for every particle" requires the sort invariant
restricting such particles to the scanned tiles. -/
theorem claim_C4_counterexample :
    ((spec_check_boundaries_openacc false 10 5 0 5 2 1
        (fun t => if t ≤ 1 then 0 else 1)
        (fun _ => ⟨-1, 2, 0, 0, 0, 0, 0, false⟩) [] []).1 0).ix = -1
      ∧ ((spec_check_boundaries_openacc false 10 5 0 5 2 1
        (fun t => if t ≤ 1 then 0 else 1)
        (fun _ => ⟨-1, 2, 0, 0, 0, 0, 0, false⟩) [] []).1 0).invalid
        = false
      ∧ (-1 : ℤ) < 0 ∧ (-1 : ℤ) ≠ -1 + 10 := by
  have hL1 : passIdxs (fun t => if t ≤ 1 then 0 else 1) (leftTiles 2 1)
      = [] := rfl
  have hL2 : passIdxs (fun t => if t ≤ 1 then 0 else 1) (rightTiles 2 1)
      = [0] := rfl
  have hL3 : passIdxs (fun t => if t ≤ 1 then 0 else 1) (downTiles 2)
      = [0] := rfl
  have hL4 : passIdxs (fun t => if t ≤ 1 then 0 else 1) (upTiles 2 1)
      = [0] := rfl
  refine ⟨?_, ?_, by norm_num, by norm_num⟩ <;>
  · simp only [spec_check_boundaries_openacc, hL1, hL2, hL3, hL4,
      x_left_pass, x_right_pass, y_down_pass, y_up_pass,
      Bool.false_eq_true, if_false, List.foldl_nil, List.foldl_cons]
    norm_num

/-! ## Tiled versus default particle advance (claim C8) -/

theorem vAddZero (a : Vfld ℝ) : a + 0 = a := by
  cases a
  simp [Vfld.add_def, Vfld.zero_def]

theorem vZeroAdd (a : Vfld ℝ) : (0 : Vfld ℝ) + a = a := by
  cases a
  simp [Vfld.add_def, Vfld.zero_def]

theorem vAddAssoc (a b c : Vfld ℝ) : a + b + c = a + (b + c) := by
  cases a; cases b; cases c
  simp [Vfld.add_def, add_assoc]

theorem LTRIM_range (v : ℝ) : LTRIM v = -1 ∨ LTRIM v = 0 ∨ LTRIM v = 1 := by
  unfold LTRIM
  split_ifs <;> simp

/-- Translation of a virtual particle by a cell offset (the relation between
the tile-local and the global cell index of the same trajectory segment). -/
def vpShift (s t : ℤ) (vp : Vp) : Vp := { vp with ix := vp.ix + s, iy := vp.iy + t }

theorem dep_current_split_shift (s t ix iy di dj : ℤ)
    (x0 y0 dx dy qvz : ℝ) (junk : Vp) (hdj : dj = LTRIM (y0 + dy)) :
    dep_current_split (ix + s) (iy + t) di dj x0 y0 dx dy qvz junk
      = (dep_current_split ix iy di dj x0 y0 dx dy qvz junk).map
          (vpShift s t) := by
  simp only [dep_current_split, dep_ysplit]
  split_ifs
  all_goals try (simp only [List.map_cons, List.map_nil, vpShift,
    List.cons.injEq, Vp.mk.injEq]; try norm_num; try omega)
  all_goals
    rename_i hdjn hg
    exfalso
    apply hdjn
    rw [hdj]
    unfold LTRIM
    push_neg at hg
    rw [if_neg (not_lt.mpr hg.1), if_neg (not_le.mpr hg.2)]

theorem dep_current_split_cells (ix iy di dj : ℤ) (x0 y0 dx dy qvz : ℝ)
    (junk : Vp) (hdj : dj = LTRIM (y0 + dy)) :
    ∀ vp ∈ dep_current_split ix iy di dj x0 y0 dx dy qvz junk,
      (vp.ix = ix ∨ vp.ix = ix + di) ∧ (vp.iy = iy ∨ vp.iy = iy + dj) := by
  intro vp hvp
  simp only [dep_current_split, dep_ysplit] at hvp
  split_ifs at hvp
  all_goals simp only [List.mem_cons, List.not_mem_nil, or_false] at hvp
  all_goals first
    | (rcases hvp with rfl | rfl | rfl <;> simp)
    | (rcases hvp with rfl | rfl <;> simp)
    | (rcases hvp with rfl <;> simp)
    | skip
  all_goals
    rename_i hdjn hg
    exfalso
    apply hdjn
    rw [hdj]
    unfold LTRIM
    push_neg at hg
    rw [if_neg (not_lt.mpr hg.1), if_neg (not_le.mpr hg.2)]

/-- Shared-memory tile load of spec_advance_openacc:
local cell (i, j) holds the global field at
(tile_x*TILE_SIZE + i - 1, tile_y*TILE_SIZE + j - 1). -/
def tileLoad (F : Cell → Vfld ℝ) (T : ℕ) (tx ty : ℤ) : Cell → Vfld ℝ :=
  fun c => F (tx * T + c.1 - 1, ty * T + c.2 - 1)

theorem interpolate_fld_tile (E B : Cell → Vfld ℝ) (T : ℕ) (tx ty a b : ℤ)
    (x y : ℝ) :
    interpolate_fld (tileLoad E T tx ty) (tileLoad B T tx ty)
        (a - (tx * T - 1)) (b - (ty * T - 1)) x y
      = interpolate_fld E B a b x y := by
  simp only [interpolate_fld, tileLoad]
  by_cases hx : x < 1 / 2 <;> by_cases hy : y < 1 / 2
  · simp only [if_pos hx, if_pos hy]
    ring_nf
  · simp only [if_pos hx, if_neg hy]
    ring_nf
  · simp only [if_neg hx, if_pos hy]
    ring_nf
  · simp only [if_neg hx, if_neg hy]
    ring_nf

/-- The sum of the increments a list of atomic adds deposits at one cell. -/
def addsAt {κ : Type} [DecidableEq κ] (adds : List (κ × Vfld ℝ)) (c : κ) :
    Vfld ℝ :=
  adds.foldr (fun a acc => if a.1 = c then a.2 + acc else acc) 0

/-- A sequence of atomic `J[c] += v` operations. -/
def applyAdds {κ : Type} [DecidableEq κ] (adds : List (κ × Vfld ℝ))
    (J : κ → Vfld ℝ) : κ → Vfld ℝ :=
  adds.foldl (fun J a => Function.update J a.1 (J a.1 + a.2)) J

theorem applyAdds_eq {κ : Type} [DecidableEq κ] (adds : List (κ × Vfld ℝ))
    (J : κ → Vfld ℝ) :
    applyAdds adds J = fun c => J c + addsAt adds c := by
  induction adds generalizing J with
  | nil =>
    funext c
    show J c = J c + addsAt [] c
    rw [addsAt, List.foldr_nil, vAddZero]
  | cons a ta ih =>
    show applyAdds ta (Function.update J a.1 (J a.1 + a.2)) = _
    rw [ih]
    funext c
    show Function.update J a.1 (J a.1 + a.2) c + addsAt ta c
      = J c + (if a.1 = c then a.2 + addsAt ta c else addsAt ta c)
    by_cases hc : a.1 = c
    · subst hc
      rw [Function.update_same, if_pos rfl, vAddAssoc]
    · rw [Function.update_noteq (fun h => hc h.symm), if_neg hc]

theorem addsAt_keyed_miss {α κ : Type} [DecidableEq κ] (l : List α)
    (k : α → κ) (v : α → Vfld ℝ) (g : κ) (h : ∀ a ∈ l, k a ≠ g) :
    addsAt (l.map (fun a => (k a, v a))) g = 0 := by
  induction l with
  | nil => rfl
  | cons a ta ih =>
    show (if k a = g then v a + addsAt (ta.map fun a => (k a, v a)) g
      else addsAt (ta.map fun a => (k a, v a)) g) = 0
    rw [if_neg (h a (List.mem_cons_self a ta))]
    exact ih (fun b hb => h b (List.mem_cons_of_mem a hb))

theorem addsAt_keyed_hit {α κ : Type} [DecidableEq κ] (l : List α)
    (k : α → κ) (v : α → Vfld ℝ) (c0 : α) (hmem : c0 ∈ l)
    (hnd : (l.map k).Nodup) :
    addsAt (l.map (fun a => (k a, v a))) (k c0) = v c0 := by
  induction l with
  | nil => cases hmem
  | cons a ta ih =>
    have hnd2 : (ta.map k).Nodup := (List.nodup_cons.mp (by
      simpa using hnd)).2
    have hknot : k a ∉ ta.map k := (List.nodup_cons.mp (by
      simpa using hnd)).1
    rcases List.mem_cons.mp hmem with rfl | hmem2
    · show (if k c0 = k c0 then v c0 + addsAt (ta.map fun a => (k a, v a))
        (k c0) else addsAt (ta.map fun a => (k a, v a)) (k c0)) = v c0
      rw [if_pos rfl,
        addsAt_keyed_miss ta k v (k c0) (fun b hb hkb =>
          hknot (hkb ▸ List.mem_map_of_mem k hb)),
        vAddZero]
    · have hne : k a ≠ k c0 := fun h =>
        hknot (h ▸ List.mem_map_of_mem k hmem2)
      show (if k a = k c0 then v a + addsAt (ta.map fun a => (k a, v a))
        (k c0) else addsAt (ta.map fun a => (k a, v a)) (k c0)) = v c0
      rw [if_neg hne]
      exact ih hmem2 hnd2

theorem addsAt_map_shift (A : List (Cell × Vfld ℝ)) (s t : ℤ) (c : Cell) :
    addsAt (A.map (fun a => ((a.1.1 + s, a.1.2 + t), a.2)))
        (c.1 + s, c.2 + t)
      = addsAt A c := by
  induction A with
  | nil => rfl
  | cons a ta ih =>
    show (if (a.1.1 + s, a.1.2 + t) = (c.1 + s, c.2 + t) then
        a.2 + addsAt (ta.map fun a => ((a.1.1 + s, a.1.2 + t), a.2))
          (c.1 + s, c.2 + t)
      else addsAt (ta.map fun a => ((a.1.1 + s, a.1.2 + t), a.2))
          (c.1 + s, c.2 + t))
      = (if a.1 = c then a.2 + addsAt ta c else addsAt ta c)
    by_cases hc : a.1 = c
    · rw [if_pos (by rw [hc]), if_pos hc, ih]
    · have hne : ((a.1.1 + s, a.1.2 + t) : Cell) ≠ (c.1 + s, c.2 + t) := by
        intro h
        apply hc
        have h1 := congrArg Prod.fst h
        have h2 := congrArg Prod.snd h
        simp only at h1 h2
        have e1 : a.1.1 = c.1 := by omega
        have e2 : a.1.2 = c.2 := by omega
        exact Prod.ext e1 e2
      rw [if_neg hne, if_neg hc, ih]

/-- The eight atomic current adds the deposit loop of dep_current_openacc
performs for one virtual particle. -/
noncomputable def vpAdds (qnx qny : ℝ) (vp : Vp) : List (Cell × Vfld ℝ) :=
  let S0x0 := 1 - vp.x0
  let S0x1 := vp.x0
  let S1x0 := 1 - vp.x1
  let S1x1 := vp.x1
  let S0y0 := 1 - vp.y0
  let S0y1 := vp.y0
  let S1y0 := 1 - vp.y1
  let S1y1 := vp.y1
  let wl1 := qnx * vp.dx
  let wl2 := qny * vp.dy
  let wp10 := (1 / 2) * (S0y0 + S1y0)
  let wp11 := (1 / 2) * (S0y1 + S1y1)
  let wp20 := (1 / 2) * (S0x0 + S1x0)
  let wp21 := (1 / 2) * (S0x1 + S1x1)
  [((vp.ix, vp.iy), ⟨wl1 * wp10, 0, 0⟩),
   ((vp.ix, vp.iy + 1), ⟨wl1 * wp11, 0, 0⟩),
   ((vp.ix, vp.iy), ⟨0, wl2 * wp20, 0⟩),
   ((vp.ix + 1, vp.iy), ⟨0, wl2 * wp21, 0⟩),
   ((vp.ix, vp.iy),
     ⟨0, 0, vp.qvz * (S0x0 * S0y0 + S1x0 * S1y0
        + (S0x0 * S1y0 - S1x0 * S0y0) / 2)⟩),
   ((vp.ix + 1, vp.iy),
     ⟨0, 0, vp.qvz * (S0x1 * S0y0 + S1x1 * S1y0
        + (S0x1 * S1y0 - S1x1 * S0y0) / 2)⟩),
   ((vp.ix, vp.iy + 1),
     ⟨0, 0, vp.qvz * (S0x0 * S0y1 + S1x0 * S1y1
        + (S0x0 * S1y1 - S1x0 * S0y1) / 2)⟩),
   ((vp.ix + 1, vp.iy + 1),
     ⟨0, 0, vp.qvz * (S0x1 * S0y1 + S1x1 * S1y1
        + (S0x1 * S1y1 - S1x1 * S0y1) / 2)⟩)]

theorem vpAdds_shift (qnx qny : ℝ) (s t : ℤ) (vp : Vp) :
    vpAdds qnx qny (vpShift s t vp)
      = (vpAdds qnx qny vp).map
          (fun a => ((a.1.1 + s, a.1.2 + t), a.2)) := by
  simp only [vpAdds, vpShift, List.map_cons, List.map_nil, List.cons.injEq,
    Prod.mk.injEq]
  norm_num
  omega

theorem vpAdds_cells (qnx qny : ℝ) (vp : Vp) :
    ∀ a ∈ vpAdds qnx qny vp,
      (a.1.1 = vp.ix ∨ a.1.1 = vp.ix + 1)
        ∧ (a.1.2 = vp.iy ∨ a.1.2 = vp.iy + 1) := by
  intro a ha
  simp only [vpAdds, List.mem_cons, List.not_mem_nil, or_false] at ha
  rcases ha with rfl | rfl | rfl | rfl | rfl | rfl | rfl | rfl <;> simp

/-- dep_current_openacc: split the trajectory, then deposit the virtual
particles' currents into J by atomic adds, in program order. -/
noncomputable def dep_current_openacc (ix iy di dj : ℤ)
    (x0 y0 dx dy qnx qny qvz : ℝ) (junk : Vp) (J : Cell → Vfld ℝ) :
    Cell → Vfld ℝ :=
  applyAdds ((dep_current_split ix iy di dj x0 y0 dx dy qvz junk).flatMap
    (vpAdds qnx qny)) J

/-- The end-of-tile scatter of spec_advance_openacc: atomically add every
cell of the (TILE_SIZE+3)^2 local current buffer to the global current at
(tile_x*TILE_SIZE + i - 1, tile_y*TILE_SIZE + j - 1). -/
noncomputable def scatterTile (T : ℕ) (tx ty : ℤ) (Jloc J : Cell → Vfld ℝ) :
    Cell → Vfld ℝ :=
  (loopIdx 0 (T + 3) 0 (T + 3)).foldl (fun J c =>
    Function.update J (tx * T + c.1 - 1, ty * T + c.2 - 1)
      (J (tx * T + c.1 - 1, ty * T + c.2 - 1) + Jloc c)) J

theorem scatterTile_eq (T : ℕ) (tx ty : ℤ) (Jloc J : Cell → Vfld ℝ) :
    scatterTile T tx ty Jloc J
      = applyAdds ((loopIdx 0 (T + 3) 0 (T + 3)).map
          (fun c => ((tx * T + c.1 - 1, ty * T + c.2 - 1), Jloc c))) J := by
  unfold scatterTile applyAdds
  rw [List.foldl_map]

theorem vMkZeroAdd (a : Vfld ℝ) : (⟨0, 0, 0⟩ : Vfld ℝ) + a = a := vZeroAdd a

/-- Depositing a list of adds into the zeroed tile-local current buffer and
then scattering the buffer into the global current is the same as
performing the adds directly on the global current at the shifted cells,
provided every add lands inside the (TILE_SIZE+3)^2 local window. -/
theorem scatter_local_adds (T : ℕ) (tx ty : ℤ) (A : List (Cell × Vfld ℝ))
    (J : Cell → Vfld ℝ)
    (hA : ∀ a ∈ A, (0 ≤ a.1.1 ∧ a.1.1 < (T : ℤ) + 3)
        ∧ (0 ≤ a.1.2 ∧ a.1.2 < (T : ℤ) + 3)) :
    scatterTile T tx ty (applyAdds A (fun _ => ⟨0, 0, 0⟩)) J
      = applyAdds (A.map (fun a =>
          ((a.1.1 + (tx * T - 1), a.1.2 + (ty * T - 1)), a.2))) J := by
  rw [scatterTile_eq, applyAdds_eq A, applyAdds_eq, applyAdds_eq]
  have hS : (loopIdx 0 (T + 3) 0 (T + 3)).map
      (fun c => ((tx * T + c.1 - 1, ty * T + c.2 - 1),
        (fun c => (fun _ : Cell => (⟨0, 0, 0⟩ : Vfld ℝ)) c + addsAt A c) c))
      = (loopIdx 0 (T + 3) 0 (T + 3)).map
        (fun c => ((c.1 + (tx * T - 1), c.2 + (ty * T - 1)), addsAt A c))
      := by
    refine List.map_congr_left ?_
    intro c _
    refine Prod.ext (Prod.ext ?_ ?_) ?_
    · show tx * T + c.1 - 1 = c.1 + (tx * T - 1)
      ring
    · show ty * T + c.2 - 1 = c.2 + (ty * T - 1)
      ring
    · show (⟨0, 0, 0⟩ : Vfld ℝ) + addsAt A c = addsAt A c
      exact vMkZeroAdd _
  rw [hS]
  funext g
  have hnd : ((loopIdx 0 (T + 3) 0 (T + 3)).map
      (fun c : Cell => (c.1 + (tx * T - 1), c.2 + (ty * T - 1)))).Nodup := by
    refine List.Nodup.map ?_ (nodup_loopIdx _ _ _ _)
    intro c d hcd
    have h1 := congrArg Prod.fst hcd
    have h2 := congrArg Prod.snd hcd
    simp only at h1 h2
    exact Prod.ext (by omega) (by omega)
  have hkey : addsAt ((loopIdx 0 (T + 3) 0 (T + 3)).map
      (fun c => ((c.1 + (tx * T - 1), c.2 + (ty * T - 1)), addsAt A c))) g
      = addsAt (A.map (fun a =>
          ((a.1.1 + (tx * T - 1), a.1.2 + (ty * T - 1)), a.2))) g := by
    by_cases hmem : ((g.1 - (tx * T - 1), g.2 - (ty * T - 1)) : Cell)
        ∈ loopIdx 0 (T + 3) 0 (T + 3)
    · have hgc : g = ((g.1 - (tx * T - 1)) + (tx * T - 1),
          (g.2 - (ty * T - 1)) + (ty * T - 1)) := by
        refine Prod.ext ?_ ?_
        · show g.1 = g.1 - (tx * T - 1) + (tx * T - 1)
          ring
        · show g.2 = g.2 - (ty * T - 1) + (ty * T - 1)
          ring
      rw [hgc]
      exact (addsAt_keyed_hit (loopIdx 0 (T + 3) 0 (T + 3))
          (fun c : Cell => (c.1 + (tx * T - 1), c.2 + (ty * T - 1)))
          (fun c => addsAt A c)
          ((g.1 - (tx * T - 1), g.2 - (ty * T - 1)) : Cell) hmem hnd).trans
        (addsAt_map_shift A (tx * T - 1) (ty * T - 1)
          ((g.1 - (tx * T - 1), g.2 - (ty * T - 1)) : Cell)).symm
    · have hL : addsAt ((loopIdx 0 (T + 3) 0 (T + 3)).map
          (fun c => ((c.1 + (tx * T - 1), c.2 + (ty * T - 1)),
            addsAt A c))) g = 0 := by
        refine addsAt_keyed_miss _ _ _ _ ?_
        intro c hc hkc
        apply hmem
        have h1 := congrArg Prod.fst hkc
        have h2 := congrArg Prod.snd hkc
        simp only at h1 h2
        have he : ((g.1 - (tx * T - 1), g.2 - (ty * T - 1)) : Cell) = c :=
          Prod.ext (by omega) (by omega)
        rw [he]
        exact hc
      have hR : addsAt (A.map (fun a =>
          ((a.1.1 + (tx * T - 1), a.1.2 + (ty * T - 1)), a.2))) g = 0 := by
        refine addsAt_keyed_miss _ _ _ _ ?_
        intro a ha hka
        apply hmem
        have h1 := congrArg Prod.fst hka
        have h2 := congrArg Prod.snd hka
        simp only at h1 h2
        have hb := hA a ha
        have he : ((g.1 - (tx * T - 1), g.2 - (ty * T - 1)) : Cell) = a.1 :=
          Prod.ext (by omega) (by omega)
        rw [he]
        rw [mem_loopIdx]
        push_cast
        omega
      exact hL.trans hR.symm
  exact congrArg (fun w => J g + w) hkey

theorem flatMap_map_comm {α β γ : Type} (l : List α) (f : α → β)
    (g : β → List γ) :
    (l.map f).flatMap g = l.flatMap (fun a => g (f a)) := by
  induction l with
  | nil => rfl
  | cons a ta ih =>
    rw [List.map_cons, List.flatMap_cons, List.flatMap_cons, ih]

theorem map_flatMap_comm {α β γ : Type} (l : List α) (f : α → List β)
    (g : β → γ) :
    (l.flatMap f).map g = l.flatMap (fun a => (f a).map g) := by
  induction l with
  | nil => rfl
  | cons a ta ih =>
    rw [List.flatMap_cons, List.flatMap_cons, List.map_append, ih]

/-- The uninitialized stack slot vp[begin+1]: its contents are irrelevant
because the kernels' calls never take the aliased read path. -/
def vpUndef : Vp := ⟨0, 0, 0, 0, 0, 0, 0, 0, 0⟩

/-- Per-particle body of spec_advance_openacc_default: interpolate the
global fields at (ix, iy - region_offset), rotate the momentum, push the
position, deposit the current into the global J, store the results. -/
noncomputable def spec_advance_openacc_default_body
    (tem dt_dx dt_dy q qnx qny : ℝ) (E B : Cell → Vfld ℝ) (roff : ℤ)
    (p : Part) (J : Cell → Vfld ℝ) : Part × (Cell → Vfld ℝ) :=
  if p.invalid then (p, J)
  else
    let P := pushParticle tem dt_dx dt_dy q E B p.ix (p.iy - roff)
      p.x p.y p.ux p.uy p.uz
    ({ p with
        x := P.x1 - (P.di : ℝ)
        y := P.y1 - (P.dj : ℝ)
        ix := p.ix + P.di
        iy := p.iy + P.dj
        ux := P.u.x
        uy := P.u.y
        uz := P.u.z },
     dep_current_openacc p.ix (p.iy - roff) P.di P.dj p.x p.y P.dx P.dy
       qnx qny P.qvz vpUndef J)

/-- Per-particle body of the tiled spec_advance_openacc: interpolate the
tile-cached fields at the tile-local index
(ix - (tile_x*T - 1), iy - (tile_y*T - 1) - region_offset), deposit into
the zeroed tile-local current, and scatter the local current into the
global J at the end of the tile. -/
noncomputable def spec_advance_openacc_tile_body (T : ℕ) (tx ty : ℤ)
    (tem dt_dx dt_dy q qnx qny : ℝ) (E B : Cell → Vfld ℝ) (roff : ℤ)
    (p : Part) (J : Cell → Vfld ℝ) : Part × (Cell → Vfld ℝ) :=
  if p.invalid then (p, scatterTile T tx ty (fun _ => ⟨0, 0, 0⟩) J)
  else
    let P := pushParticle tem dt_dx dt_dy q (tileLoad E T tx ty)
      (tileLoad B T tx ty) (p.ix - (tx * T - 1))
      (p.iy - (ty * T - 1) - roff) p.x p.y p.ux p.uy p.uz
    ({ p with
        x := P.x1 - (P.di : ℝ)
        y := P.y1 - (P.dj : ℝ)
        ix := p.ix + P.di
        iy := p.iy + P.dj
        ux := P.u.x
        uy := P.u.y
        uz := P.u.z },
     scatterTile T tx ty
       (dep_current_openacc (p.ix - (tx * T - 1))
         (p.iy - (ty * T - 1) - roff) P.di P.dj p.x p.y P.dx P.dy
         qnx qny P.qvz vpUndef (fun _ => ⟨0, 0, 0⟩)) J)

/-- C8: for a particle residing in its tile, the tile-cached advance body
(shared-memory fields, local current, end-of-tile scatter) and the default
advance body produce the same stored particle and the same global current.
-/
theorem claim_C8_advance_equiv (T : ℕ) (tx ty : ℤ)
    (tem dt_dx dt_dy q qnx qny : ℝ) (E B : Cell → Vfld ℝ) (roff : ℤ)
    (p : Part) (J : Cell → Vfld ℝ)
    (hx1 : tx * T ≤ p.ix) (hx2 : p.ix < tx * T + T)
    (hy1 : ty * T ≤ p.iy - roff) (hy2 : p.iy - roff < ty * T + T) :
    spec_advance_openacc_tile_body T tx ty tem dt_dx dt_dy q qnx qny E B
        roff p J
      = spec_advance_openacc_default_body tem dt_dx dt_dy q qnx qny E B
        roff p J := by
  by_cases hinv : p.invalid = true
  · simp only [spec_advance_openacc_tile_body,
      spec_advance_openacc_default_body, hinv, if_true]
    refine Prod.ext rfl ?_
    show scatterTile T tx ty (fun _ => ⟨0, 0, 0⟩) J = J
    exact scatter_local_adds T tx ty [] J (fun a ha => absurd ha
      (List.not_mem_nil a))
  · have hinv2 : p.invalid = false := by
      revert hinv
      cases p.invalid <;> simp
    have hiy : p.iy - (ty * (T : ℤ) - 1) - roff
        = p.iy - roff - (ty * (T : ℤ) - 1) := by ring
    have hP : pushParticle tem dt_dx dt_dy q (tileLoad E T tx ty)
        (tileLoad B T tx ty) (p.ix - (tx * T - 1))
        (p.iy - roff - (ty * T - 1)) p.x p.y p.ux p.uy p.uz
        = pushParticle tem dt_dx dt_dy q E B p.ix (p.iy - roff)
          p.x p.y p.ux p.uy p.uz := by
      unfold pushParticle
      rw [interpolate_fld_tile]
    simp only [spec_advance_openacc_tile_body,
      spec_advance_openacc_default_body, hinv2, Bool.false_eq_true,
      if_false]
    rw [hiy, hP]
    set P := pushParticle tem dt_dx dt_dy q E B p.ix (p.iy - roff)
      p.x p.y p.ux p.uy p.uz with hPdef
    refine Prod.ext rfl ?_
    show scatterTile T tx ty
        (dep_current_openacc (p.ix - (tx * T - 1))
          (p.iy - roff - (ty * T - 1)) P.di P.dj p.x p.y P.dx P.dy
          qnx qny P.qvz vpUndef (fun _ => ⟨0, 0, 0⟩)) J
      = dep_current_openacc p.ix (p.iy - roff) P.di P.dj p.x p.y P.dx P.dy
          qnx qny P.qvz vpUndef J
    have hdj : P.dj = LTRIM (p.y + P.dy) := rfl
    have hdi : P.di = LTRIM (p.x + P.dx) := rfl
    have hdiR : P.di = -1 ∨ P.di = 0 ∨ P.di = 1 := by
      rw [hdi]
      exact LTRIM_range _
    have hdjR : P.dj = -1 ∨ P.dj = 0 ∨ P.dj = 1 := by
      rw [hdj]
      exact LTRIM_range _
    have hAL : ∀ a ∈ (dep_current_split (p.ix - (tx * T - 1))
        (p.iy - roff - (ty * T - 1)) P.di P.dj p.x p.y P.dx P.dy P.qvz
        vpUndef).flatMap (vpAdds qnx qny),
        (0 ≤ a.1.1 ∧ a.1.1 < (T : ℤ) + 3)
          ∧ (0 ≤ a.1.2 ∧ a.1.2 < (T : ℤ) + 3) := by
      intro a ha
      rcases List.mem_flatMap.mp ha with ⟨vp, hvp, hadd⟩
      have h1 := dep_current_split_cells (p.ix - (tx * T - 1))
        (p.iy - roff - (ty * T - 1)) P.di P.dj p.x p.y P.dx P.dy P.qvz
        vpUndef hdj vp hvp
      have h2 := vpAdds_cells qnx qny vp a hadd
      rcases h1 with ⟨hv1, hv2⟩
      rcases h2 with ⟨ha1, ha2⟩
      rcases hdiR with h | h | h <;> rcases hdjR with g | g | g <;>
        rcases hv1 with e | e <;> rcases hv2 with f | f <;>
        rcases ha1 with e2 | e2 <;> rcases ha2 with f2 | f2 <;>
        omega
    have hsplit : dep_current_split p.ix (p.iy - roff) P.di P.dj p.x p.y
        P.dx P.dy P.qvz vpUndef
        = (dep_current_split (p.ix - (tx * T - 1))
            (p.iy - roff - (ty * T - 1)) P.di P.dj p.x p.y P.dx P.dy
            P.qvz vpUndef).map (vpShift (tx * T - 1) (ty * T - 1)) := by
      have hsh := dep_current_split_shift (tx * T - 1) (ty * T - 1)
        (p.ix - (tx * T - 1)) (p.iy - roff - (ty * T - 1)) P.di P.dj
        p.x p.y P.dx P.dy P.qvz vpUndef hdj
      rw [show p.ix - (tx * (T : ℤ) - 1) + (tx * (T : ℤ) - 1) = p.ix by
            ring,
          show p.iy - roff - (ty * (T : ℤ) - 1) + (ty * (T : ℤ) - 1)
            = p.iy - roff by ring] at hsh
      exact hsh
    have hAGmap : (dep_current_split p.ix (p.iy - roff) P.di P.dj p.x p.y
        P.dx P.dy P.qvz vpUndef).flatMap (vpAdds qnx qny)
        = ((dep_current_split (p.ix - (tx * T - 1))
            (p.iy - roff - (ty * T - 1)) P.di P.dj p.x p.y P.dx P.dy
            P.qvz vpUndef).flatMap (vpAdds qnx qny)).map
          (fun a => ((a.1.1 + (tx * T - 1), a.1.2 + (ty * T - 1)), a.2))
        := by
      rw [hsplit, flatMap_map_comm, map_flatMap_comm]
      refine flatMap_congr_mem _ _ _ ?_
      intro vp _
      exact vpAdds_shift qnx qny (tx * T - 1) (ty * T - 1) vp
    unfold dep_current_openacc
    rw [scatter_local_adds T tx ty _ J hAL, hAGmap]

theorem claim_C8_advance_equiv_witness :
    spec_advance_openacc_tile_body 4 0 0 1 1 1 1 1 1
        (fun _ => ⟨0, 0, 0⟩) (fun _ => ⟨0, 0, 0⟩) 0
        ⟨1, 2, 1 / 2, 1 / 2, 0, 0, 0, false⟩ (fun _ => ⟨0, 0, 0⟩)
      = spec_advance_openacc_default_body 1 1 1 1 1 1
        (fun _ => ⟨0, 0, 0⟩) (fun _ => ⟨0, 0, 0⟩) 0
        ⟨1, 2, 1 / 2, 1 / 2, 0, 0, 0, false⟩ (fun _ => ⟨0, 0, 0⟩) :=
  claim_C8_advance_equiv 4 0 0 1 1 1 1 1 1
    (fun _ => ⟨0, 0, 0⟩) (fun _ => ⟨0, 0, 0⟩) 0
    ⟨1, 2, 1 / 2, 1 / 2, 0, 0, 0, false⟩ (fun _ => ⟨0, 0, 0⟩)
    (by norm_num) (by norm_num) (by norm_num) (by norm_num)

end ZPIC
